import Mathlib

/-!
# Verification of the kivi storage engine core

Shallow embedding of the kivi repository's memtable subsystem
(`internal/memtable/arena.go`, `internal/memtable/memtable.go`) and WAL
subsystem (`internal/wal/record.go`, the WAL writer/reader file) in Lean 4,
together with proofs and refutations of the frozen claims about the
natural-language specification.

Conventions:
* Go byte strings (`[]byte` / `string` used as byte keys) are `List Nat`
  with every element `< 256`; comparison is byte-lexicographic, exactly as
  Go's `string` comparison on the `string(key)` conversions in the source.
* Go `uint64` / `uint32` values are `Nat` with explicit `% 2 ^ 64` /
  `% 2 ^ 32` wherever the Go code truncates.
* The Go `Skiplist` keeps a map `entries` plus a sorted slice `keys` that
  always (by construction from an empty table) holds exactly the sorted
  domain of `entries`; the pair is represented here as a single
  key-sorted association list.
* Fallible Go code returns `Option`/`Except`; a Go runtime panic
  (out-of-range index/slice) is modelled as a dedicated error value so
  that reaching it is observable.
-/

/-! ## Byte strings and their order -/

/-- A Go byte string: list of byte values. -/
abbrev ByteStr := List Nat

/-- Byte-lexicographic strict order, as Go's `<` on `string`. -/
def ltKey : ByteStr → ByteStr → Bool
  | [], [] => false
  | [], _ :: _ => true
  | _ :: _, [] => false
  | a :: as, b :: bs => if a < b then true else if b < a then false else ltKey as bs

/-- Byte-lexicographic `≤`, as Go's `<=` on `string`. -/
def leKey (a b : ByteStr) : Bool := ! ltKey b a

theorem ltKey_irrefl (a : ByteStr) : ltKey a a = false := by
  induction a with
  | nil => rfl
  | cons x xs ih => simp [ltKey, ih]

theorem ltKey_trans {a b c : ByteStr} (hab : ltKey a b = true)
    (hbc : ltKey b c = true) : ltKey a c = true := by
  induction a generalizing b c with
  | nil =>
    cases b with
    | nil => simp [ltKey] at hab
    | cons y ys =>
      cases c with
      | nil => simp [ltKey] at hbc
      | cons z zs => simp [ltKey]
  | cons x xs ih =>
    cases b with
    | nil => simp [ltKey] at hab
    | cons y ys =>
      cases c with
      | nil => simp [ltKey] at hbc
      | cons z zs =>
        simp only [ltKey] at hab hbc ⊢
        rcases Nat.lt_trichotomy x y with hxy | rfl | hxy
        · rcases Nat.lt_trichotomy y z with hyz | rfl | hyz
          · simp [Nat.lt_trans hxy hyz]
          · simp [hxy]
          · rw [if_neg (Nat.lt_asymm hyz), if_pos hyz] at hbc
            simp at hbc
        · rw [if_neg (Nat.lt_irrefl x), if_neg (Nat.lt_irrefl x)] at hab
          rcases Nat.lt_trichotomy x z with hxz | rfl | hxz
          · simp [hxz]
          · rw [if_neg (Nat.lt_irrefl x), if_neg (Nat.lt_irrefl x)] at hbc
            simp [Nat.lt_irrefl, ih hab hbc]
          · rw [if_neg (Nat.lt_asymm hxz), if_pos hxz] at hbc
            simp at hbc
        · rw [if_neg (Nat.lt_asymm hxy), if_pos hxy] at hab
          simp at hab

/-- Trichotomy: two keys that are not `<` in either direction are equal. -/
theorem ltKey_total {a b : ByteStr} (hab : ltKey a b = false)
    (hba : ltKey b a = false) : a = b := by
  induction a generalizing b with
  | nil =>
    cases b with
    | nil => rfl
    | cons y ys => simp [ltKey] at hab
  | cons x xs ih =>
    cases b with
    | nil => simp [ltKey] at hba
    | cons y ys =>
      simp only [ltKey] at hab hba
      rcases Nat.lt_trichotomy x y with hxy | rfl | hxy
      · simp [hxy] at hab
      · rw [if_neg (Nat.lt_irrefl x), if_neg (Nat.lt_irrefl x)] at hab hba
        simp [ih hab hba]
      · simp [hxy, Nat.lt_asymm hxy] at hba

theorem ltKey_of_not_lt_of_ne {a b : ByteStr} (h : ltKey a b = false)
    (hne : a ≠ b) : ltKey b a = true := by
  cases hba : ltKey b a with
  | true => rfl
  | false => exact absurd (ltKey_total h hba) hne

/-! ## Ordered in-memory table (`Skiplist`, from `internal/memtable/arena.go`)

The Go `Skiplist` holds `entries : map[string]entry` together with a
slice `keys` kept sorted ascending and containing exactly the keys that
occur in `entries` (both `Put` and `Delete` insert the key into `keys`
via `keyPresent`/`sortKeys`, and nothing ever removes a key).  A state of
that pair is therefore represented as a key-sorted association list.
Values stored through the arena are byte-for-byte copies of the input
(`Arena.Copy` / `clone`), so copying is the identity in the model. -/

/-- The per-key version record (`entry` in `arena.go`): sequence number,
value bytes and tombstone flag.  A tombstone stores `value = []`
(Go stores `nil`, a zero-length slice). -/
structure Entry where
  seq : Nat
  value : ByteStr
  deleted : Bool
deriving DecidableEq, Repr

/-- A `Skiplist` state: key-sorted association list of version records. -/
abbrev Skiplist := List (ByteStr × Entry)

/-- Lookup in `entries` (Go `s.entries[k]`). -/
def findEntry : Skiplist → ByteStr → Option Entry
  | [], _ => none
  | (k', e') :: rest, k => if k = k' then some e' else findEntry rest k

/-- Store `k ↦ e` (Go `s.entries[k] = e` plus keeping `keys` sorted):
insert at the sorted position, replacing any existing record for `k`. -/
def putEntry : Skiplist → ByteStr → Entry → Skiplist
  | [], k, e => [(k, e)]
  | (k', e') :: rest, k, e =>
    if ltKey k k' then (k, e) :: (k', e') :: rest
    else if k = k' then (k, e) :: rest
    else (k', e') :: putEntry rest k e

/-- Go `Skiplist.Put` (arena.go lines 94-119): reject if an entry exists with
stored sequence `≥ seq`, otherwise store `(seq, copy(val), false)`.
The Go method always returns `nil` (sequence-reject is silent success). -/
def Skiplist.put (s : Skiplist) (key val : ByteStr) (seq : Nat) : Skiplist :=
  match findEntry s key with
  | some cur => if seq ≤ cur.seq then s else putEntry s key ⟨seq, val, false⟩
  | none => putEntry s key ⟨seq, val, false⟩

/-- Go `Skiplist.Delete` (arena.go lines 122-140): same sequence rule; on
acceptance stores `(seq, nil, true)`. -/
def Skiplist.del (s : Skiplist) (key : ByteStr) (seq : Nat) : Skiplist :=
  match findEntry s key with
  | some cur => if seq ≤ cur.seq then s else putEntry s key ⟨seq, [], true⟩
  | none => putEntry s key ⟨seq, [], true⟩

/-- Go `Skiplist.Get` (arena.go lines 143-154): `none` when the key is absent
or tombstoned, otherwise the (cloned) stored value. -/
def Skiplist.get (s : Skiplist) (key : ByteStr) : Option ByteStr :=
  match findEntry s key with
  | some e => if e.deleted then none else some e.value
  | none => none

theorem findEntry_putEntry_self (s : Skiplist) (k : ByteStr) (e : Entry) :
    findEntry (putEntry s k e) k = some e := by
  induction s with
  | nil => simp [putEntry, findEntry]
  | cons hd rest ih =>
    obtain ⟨k', e'⟩ := hd
    by_cases hlt : ltKey k k'
    · simp [putEntry, hlt, findEntry]
    · by_cases heq : k = k'
      · subst heq
        simp [putEntry, ltKey_irrefl, findEntry]
      · simp [putEntry, hlt, heq, findEntry, ih]

theorem findEntry_putEntry_ne (s : Skiplist) (k k2 : ByteStr) (e : Entry)
    (hne : k2 ≠ k) : findEntry (putEntry s k e) k2 = findEntry s k2 := by
  induction s with
  | nil => simp [putEntry, findEntry, hne]
  | cons hd rest ih =>
    obtain ⟨k', e'⟩ := hd
    by_cases hlt : ltKey k k'
    · simp [putEntry, hlt, findEntry, hne]
    · by_cases heq : k = k'
      · subst heq
        simp [putEntry, hlt, findEntry, hne]
      · simp [putEntry, hlt, heq, findEntry, ih]

theorem mem_putEntry {s : Skiplist} {k : ByteStr} {e : Entry}
    {p : ByteStr × Entry} (hp : p ∈ putEntry s k e) :
    p = (k, e) ∨ p ∈ s := by
  induction s with
  | nil => simpa [putEntry] using hp
  | cons hd rest ih =>
    obtain ⟨k', e'⟩ := hd
    by_cases hlt : ltKey k k'
    · simp only [putEntry, if_pos hlt, List.mem_cons] at hp
      rcases hp with h | h | h
      · exact Or.inl h
      · exact Or.inr (by simp [h])
      · exact Or.inr (by simp [h])
    · by_cases heq : k = k'
      · simp only [putEntry, if_neg hlt, if_pos heq, List.mem_cons] at hp
        rcases hp with h | h
        · exact Or.inl h
        · exact Or.inr (by simp [h])
      · simp only [putEntry, if_neg hlt, if_neg heq, List.mem_cons] at hp
        rcases hp with h | h
        · exact Or.inr (by simp [h])
        · rcases ih h with h2 | h2
          · exact Or.inl h2
          · exact Or.inr (by simp [h2])

/-- Keys appear in strictly ascending byte-lexicographic order. -/
abbrev SortedTable (s : Skiplist) : Prop :=
  List.Pairwise (fun a b => ltKey a.1 b.1 = true) s

theorem sortedTable_putEntry {s : Skiplist} (hs : SortedTable s)
    (k : ByteStr) (e : Entry) : SortedTable (putEntry s k e) := by
  induction s with
  | nil => simp [putEntry, SortedTable]
  | cons hd rest ih =>
    obtain ⟨k', e'⟩ := hd
    have hhd := (List.pairwise_cons.mp hs).1
    have hrest := (List.pairwise_cons.mp hs).2
    by_cases hlt : ltKey k k'
    · simp only [putEntry, if_pos hlt]
      refine List.pairwise_cons.mpr ⟨?_, hs⟩
      intro p hp
      rcases List.mem_cons.mp hp with rfl | hp2
      · exact hlt
      · exact ltKey_trans hlt (hhd p hp2)
    · by_cases heq : k = k'
      · subst heq
        simp only [putEntry, if_neg hlt, if_pos rfl]
        exact List.pairwise_cons.mpr ⟨hhd, hrest⟩
      · simp only [putEntry, if_neg hlt, if_neg heq]
        refine List.pairwise_cons.mpr ⟨?_, ih hrest⟩
        intro p hp
        rcases mem_putEntry hp with rfl | hp2
        · exact ltKey_of_not_lt_of_ne (by simpa using hlt) heq
        · exact hhd p hp2

theorem sortedTable_put {s : Skiplist} (hs : SortedTable s)
    (key val : ByteStr) (seq : Nat) : SortedTable (s.put key val seq) := by
  unfold Skiplist.put
  cases findEntry s key with
  | none => exact sortedTable_putEntry hs _ _
  | some cur =>
    by_cases h : seq ≤ cur.seq
    · simpa [h]
    · simpa [h] using sortedTable_putEntry hs key ⟨seq, val, false⟩

theorem sortedTable_del {s : Skiplist} (hs : SortedTable s)
    (key : ByteStr) (seq : Nat) : SortedTable (s.del key seq) := by
  unfold Skiplist.del
  cases findEntry s key with
  | none => exact sortedTable_putEntry hs _ _
  | some cur =>
    by_cases h : seq ≤ cur.seq
    · simpa [h]
    · simpa [h] using sortedTable_putEntry hs key ⟨seq, [], true⟩

/-! ## Snapshot iterator (`Iterator`, arena.go lines 156-205) -/

/-- The visible (non-tombstoned) pairs of a table, in table order.  This
is exactly what `Skiplist.NewIterator` snapshots while walking `s.keys`. -/
def visiblePairs (s : Skiplist) : List (ByteStr × ByteStr) :=
  s.filterMap fun p => if p.2.deleted then none else some (p.1, p.2.value)

/-- Go `Iterator`: parallel key/value snapshot slices plus a cursor that
starts at `-1` (before the first element). -/
structure Iterator where
  keys : List ByteStr
  vals : List ByteStr
  idx : Int
deriving DecidableEq, Repr

/-- Go `Skiplist.NewIterator` (arena.go lines 164-178): snapshot of all
non-tombstoned entries in key order, values cloned. -/
def Skiplist.newIterator (s : Skiplist) : Iterator :=
  ⟨(visiblePairs s).map Prod.fst, (visiblePairs s).map Prod.snd, -1⟩

/-- The binary-search loop body of `Iterator.SeekGE`, with the decreasing
measure `hi - lo` made explicit as structural fuel (the loop runs at most
`hi - lo` times; `bsearch` below supplies exactly that much fuel). -/
def bsearchAux (keys : List ByteStr) (target : ByteStr) :
    Nat → Nat → Nat → Nat
  | 0, lo, _ => lo
  | fuel + 1, lo, hi =>
    if lo < hi then
      let mid := (lo + hi) / 2
      if ltKey (keys.getD mid []) target then bsearchAux keys target fuel (mid + 1) hi
      else bsearchAux keys target fuel lo mid
    else lo

/-- The `lo`/`hi` binary search in `Iterator.SeekGE` (arena.go 181-193). -/
def bsearch (keys : List ByteStr) (target : ByteStr) (lo hi : Nat) : Nat :=
  bsearchAux keys target (hi - lo) lo hi

/-- Go `Iterator.Next` (arena.go line 205). -/
def Iterator.next (it : Iterator) : Iterator := { it with idx := it.idx + 1 }

/-- Go `Iterator.SeekGE` (arena.go lines 181-193): binary search, position at
`lo - 1`, then `Next`. -/
def Iterator.seekGE (it : Iterator) (target : ByteStr) : Iterator :=
  Iterator.next { it with idx := (bsearch it.keys target 0 it.keys.length : Int) - 1 }

/-- Go `Iterator.Valid` (arena.go line 196). -/
def Iterator.valid (it : Iterator) : Bool :=
  decide (0 ≤ it.idx ∧ it.idx < (it.keys.length : Int))

/-- Go `Iterator.Key` (arena.go line 199); only meaningful while valid. -/
def Iterator.key (it : Iterator) : ByteStr := it.keys.getD it.idx.toNat []

/-- Go `Iterator.Value` (arena.go line 202); only meaningful while valid. -/
def Iterator.val (it : Iterator) : ByteStr := it.vals.getD it.idx.toNat []

/-- Drive an iterator forward `fuel` more steps, collecting the yielded
pairs, exactly as the repository's drain loops
(`for it.Valid() { ...; it.Next() }`) do. -/
def drainAux : Iterator → Nat → List (ByteStr × ByteStr)
  | _, 0 => []
  | it, fuel + 1 =>
    if it.valid then (it.key, it.val) :: drainAux it.next fuel else []

/-- Drain an iterator to exhaustion (`it.keys.length` steps always
suffice, because the cursor only moves forward). -/
def Iterator.drain (it : Iterator) : List (ByteStr × ByteStr) :=
  drainAux it it.keys.length

theorem bsearchAux_empty_target (keys : List ByteStr) :
    ∀ fuel lo hi, bsearchAux keys [] fuel lo hi = lo := by
  intro fuel
  induction fuel with
  | zero => intro lo hi; rfl
  | succ n ih =>
    intro lo hi
    unfold bsearchAux
    have hlt : ∀ x : ByteStr, ltKey x [] = false := by
      intro x; cases x <;> rfl
    by_cases h : lo < hi
    · simp [h, hlt, ih]
    · simp [h]

theorem bsearch_empty_target (keys : List ByteStr) (lo hi : Nat) :
    bsearch keys [] lo hi = lo := bsearchAux_empty_target keys _ lo hi

theorem drainAux_from (it : Iterator) :
    ∀ fuel, it.keys.length = it.vals.length → 0 ≤ it.idx →
    it.keys.length ≤ it.idx.toNat + fuel →
    drainAux it fuel = (it.keys.zip it.vals).drop it.idx.toNat := by
  intro fuel
  induction fuel generalizing it with
  | zero =>
    intro hlen _ hfuel
    have : (it.keys.zip it.vals).length ≤ it.idx.toNat := by
      simp [List.length_zip, ← hlen]
      omega
    simp [drainAux, List.drop_eq_nil_of_le this]
  | succ n ih =>
    intro hlen hpos hfuel
    by_cases hv : it.idx < (it.keys.length : Int)
    · have hvalid : it.valid = true := by
        simp [Iterator.valid, hpos, hv]
      have hidx : it.idx.toNat < it.keys.length := by omega
      have hidxz : it.idx.toNat < (it.keys.zip it.vals).length := by
        simp [List.length_zip, ← hlen]; omega
      have hnext : it.next.idx.toNat = it.idx.toNat + 1 := by
        simp [Iterator.next]; omega
      rw [drainAux, if_pos hvalid]
      rw [List.drop_eq_getElem_cons hidxz]
      have hkey : it.key = it.keys[it.idx.toNat] := by
        simp [Iterator.key, List.getD_eq_getElem?_getD, List.getElem?_eq_getElem hidx]
      have hvlen : it.idx.toNat < it.vals.length := by omega
      have hvalv : it.val = it.vals[it.idx.toNat] := by
        simp [Iterator.val, List.getD_eq_getElem?_getD, List.getElem?_eq_getElem hvlen]
      have hih := ih it.next (by simp [Iterator.next, hlen]) (by simp [Iterator.next]; omega)
        (by simp [Iterator.next]; omega)
      rw [show it.next.keys = it.keys from rfl, show it.next.vals = it.vals from rfl] at hih
      rw [hih, hnext]
      congr 1
      rw [List.getElem_zip]
      simp [hkey, hvalv]
    · have hvalid : it.valid = false := by
        simp [Iterator.valid]
        omega
      have : (it.keys.zip it.vals).length ≤ it.idx.toNat := by
        simp [List.length_zip, ← hlen]; omega
      simp [drainAux, hvalid, List.drop_eq_nil_of_le this]

/-- Draining a fresh iterator after `SeekGE ""` yields exactly the
visible pairs of the snapshot. -/
theorem drain_newIterator_seekGE_nil (s : Skiplist) :
    ((s.newIterator).seekGE []).drain = visiblePairs s := by
  have hseek : (s.newIterator).seekGE [] =
      ⟨(visiblePairs s).map Prod.fst, (visiblePairs s).map Prod.snd, 0⟩ := by
    simp [Skiplist.newIterator, Iterator.seekGE, Iterator.next, bsearch_empty_target]
  rw [hseek]
  unfold Iterator.drain
  rw [drainAux_from _ _ (by simp) (by simp) (by simp)]
  simp [List.zip_map']

/-! ## Memtable controller (`internal/memtable/memtable.go`) -/

/-- The `Memtable` controller state: current table, optional immutable
table, flip threshold and the rough byte counter.  (`arenaCap` only feeds
the fresh arena's capacity and has no observable effect on table
contents, so it is omitted.) -/
structure Memtable where
  current : Skiplist
  imm : Option Skiplist
  threshold : Nat
  sizeBytes : Nat
deriving DecidableEq, Repr

/-- Go `NewMemtable` (memtable.go line 18). -/
def newMemtable (threshold : Nat) : Memtable :=
  ⟨[], none, threshold, 0⟩

/-- Go `Memtable.Put` (memtable.go lines 22-36): flip when there is no
immutable table, the threshold is positive and the projected size exceeds
it; then delegate to the current table.  `current.Put` always returns
`nil`, so the byte counter grows by `len(key)+len(val)` unconditionally. -/
def Memtable.put (m : Memtable) (key val : ByteStr) (seq : Nat) : Memtable :=
  let projected := m.sizeBytes + key.length + val.length
  let m' : Memtable :=
    if m.imm = none ∧ 0 < m.threshold ∧ m.threshold < projected then
      ⟨[], some m.current, m.threshold, 0⟩
    else m
  ⟨m'.current.put key val seq, m'.imm, m'.threshold,
    m'.sizeBytes + key.length + val.length⟩

/-- Go `Memtable.Delete` (memtable.go lines 38-43): deletions always go to
the current table; no flip, no size accounting. -/
def Memtable.del (m : Memtable) (key : ByteStr) (seq : Nat) : Memtable :=
  { m with current := m.current.del key seq }

/-- Go `Memtable.Get` (memtable.go lines 45-58): consult current; on a miss
(which includes a tombstone hit, since `Skiplist.Get` reports both as
"not ok") fall through to the immutable table if present. -/
def Memtable.get (m : Memtable) (key : ByteStr) : Option ByteStr :=
  match m.current.get key with
  | some v => some v
  | none =>
    match m.imm with
    | some t => t.get key
    | none => none

/-- Go `Memtable.HasImmutable` (memtable.go lines 61-65). -/
def Memtable.hasImmutable (m : Memtable) : Bool := m.imm.isSome

/-- Go `Memtable.PopImmutable` (memtable.go lines 68-74): returns the
immutable table and the controller state with the slot cleared. -/
def Memtable.popImmutable (m : Memtable) : Option Skiplist × Memtable :=
  (m.imm, { m with imm := none })

/-! ### Merged iterator (memtable.go lines 77-174) -/

/-- Go `mergedIterator`.  `curK = none` models the Go `nil` slice that
marks "current iterator exhausted" (and likewise for `immK`); `immIt =
none` models the absent immutable iterator. -/
structure MergedIterator where
  curIt : Iterator
  immIt : Option Iterator
  curK : Option ByteStr
  immK : Option ByteStr
  curV : Option ByteStr
  immV : Option ByteStr
  valid : Bool
deriving DecidableEq, Repr

/-- Go `Memtable.NewIterator` (memtable.go lines 87-96). -/
def Memtable.newIterator (m : Memtable) : MergedIterator :=
  ⟨m.current.newIterator, m.imm.map Skiplist.newIterator,
    none, none, none, none, false⟩

/-- Go `mergedIterator.advance` (memtable.go lines 124-151): refresh the
cached key/value of each side from its iterator, and set validity. -/
def MergedIterator.advance (it : MergedIterator) : MergedIterator :=
  let (curK, curV) :=
    if it.curIt.valid then (some it.curIt.key, some it.curIt.val) else (none, none)
  let (immK, immV) :=
    match it.immIt with
    | some i => if i.valid then (some i.key, some i.val) else (none, none)
    | none => (none, none)
  ⟨it.curIt, it.immIt, curK, immK, curV, immV, !(curK.isNone && immK.isNone)⟩

/-- Go `mergedIterator.SeekGE` (memtable.go lines 98-106). -/
def MergedIterator.seekGE (it : MergedIterator) (key : ByteStr) : MergedIterator :=
  MergedIterator.advance
    { it with curIt := it.curIt.seekGE key, immIt := it.immIt.map (·.seekGE key) }

/-- Go `mergedIterator.Key` (memtable.go lines 109-114): the current side's
key whenever it is set, otherwise the immutable side's. -/
def MergedIterator.keyOut (it : MergedIterator) : ByteStr :=
  match it.curK with
  | some k => k
  | none => it.immK.getD []

/-- Go `mergedIterator.Value` (memtable.go lines 115-120). -/
def MergedIterator.valOut (it : MergedIterator) : ByteStr :=
  match it.curK with
  | some _ => it.curV.getD []
  | none => it.immV.getD []

/-- Go `mergedIterator.advanceFromCurrentKey` (memtable.go lines 153-174),
the body of `Next`: advance the side holding the chosen key, skip a
duplicate of the chosen key on either side, then `advance`. -/
def MergedIterator.nextMerged (it : MergedIterator) : MergedIterator :=
  if !it.valid then it
  else
    let chooseCur :=
      match it.curK, it.immK with
      | some ck, some ik => leKey ck ik
      | some _, none => true
      | none, _ => false
    let chosen := if chooseCur then it.curK.getD [] else it.immK.getD []
    let it1 :=
      if chooseCur then { it with curIt := it.curIt.next }
      else { it with immIt := it.immIt.map Iterator.next }
    let it2 :=
      if it1.curIt.valid && (it1.curIt.key == chosen) then
        { it1 with curIt := it1.curIt.next }
      else it1
    let it3 :=
      match it2.immIt with
      | some i =>
        if i.valid && (i.key == chosen) then
          { it2 with immIt := some i.next }
        else it2
      | none => it2
    it3.advance

/-- Drain loop over the merged iterator, with fuel. -/
def mergedDrainAux : MergedIterator → Nat → List (ByteStr × ByteStr)
  | _, 0 => []
  | it, fuel + 1 =>
    if it.valid then (it.keyOut, it.valOut) :: mergedDrainAux it.nextMerged fuel
    else []

/-- Drain the merged iterator to exhaustion; every `nextMerged` on a
valid iterator advances at least one underlying cursor, so the combined
snapshot length bounds the number of yields. -/
def MergedIterator.drain (it : MergedIterator) : List (ByteStr × ByteStr) :=
  mergedDrainAux it
    (it.curIt.keys.length + (match it.immIt with
      | some i => i.keys.length
      | none => 0) + 1)

/-! ### Concrete controller states from the specification's scenarios

Byte strings: `"a" = [97]`, `"b" = [98]`, `"bb" = [98, 98]`,
`"1" = [49]`, `"2" = [50]`, `"22" = [50, 50]`. -/

/-- S3 state: threshold 4; `Put("a","1",1)`, then `Put("bb","22",2)`
(which flips), then `Delete("a",3)`. -/
def mtS3 : Memtable :=
  (((newMemtable 4).put [97] [49] 1).put [98, 98] [50, 50] 2).del [97] 3

/-- S4 state: S3 followed by `Put("b","2",3)`. -/
def mtS4 : Memtable := mtS3.put [98] [50] 3

/-! ## WAL record codec (`internal/wal/record.go`)

Frame layout (big-endian):
`[payload_len:4][checksum:4][type:1][seq:8][key_len:4][key][val_len:4][val]`. -/

/-- Big-endian 4-byte encoding of the low 32 bits of `n`
(`binary.BigEndian.PutUint32`). -/
def be32 (n : Nat) : List Nat :=
  [n / 2 ^ 24 % 256, n / 2 ^ 16 % 256, n / 2 ^ 8 % 256, n % 256]

/-- Big-endian 8-byte encoding of the low 64 bits of `n`
(`binary.BigEndian.PutUint64`). -/
def be64 (n : Nat) : List Nat :=
  [n / 2 ^ 56 % 256, n / 2 ^ 48 % 256, n / 2 ^ 40 % 256, n / 2 ^ 32 % 256,
   n / 2 ^ 24 % 256, n / 2 ^ 16 % 256, n / 2 ^ 8 % 256, n % 256]

/-- Big-endian 4-byte decoding (`binary.BigEndian.Uint32`); reads the
first four bytes. -/
def be32val (l : List Nat) : Nat :=
  l.getD 0 0 * 2 ^ 24 + l.getD 1 0 * 2 ^ 16 + l.getD 2 0 * 2 ^ 8 + l.getD 3 0

/-- Big-endian 8-byte decoding (`binary.BigEndian.Uint64`). -/
def be64val (l : List Nat) : Nat :=
  l.getD 0 0 * 2 ^ 56 + l.getD 1 0 * 2 ^ 48 + l.getD 2 0 * 2 ^ 40 +
    l.getD 3 0 * 2 ^ 32 + l.getD 4 0 * 2 ^ 24 + l.getD 5 0 * 2 ^ 16 +
    l.getD 6 0 * 2 ^ 8 + l.getD 7 0

theorem be32_length (n : Nat) : (be32 n).length = 4 := rfl

theorem be64_length (n : Nat) : (be64 n).length = 8 := rfl

theorem be32val_be32 {n : Nat} (h : n < 2 ^ 32) : be32val (be32 n) = n := by
  simp only [be32, be32val, List.getD_cons_zero, List.getD_cons_succ]
  omega

theorem be64val_be64 {n : Nat} (h : n < 2 ^ 64) : be64val (be64 n) = n := by
  simp only [be64, be64val, List.getD_cons_zero, List.getD_cons_succ]
  omega

theorem be32_lt (n : Nat) : ∀ b ∈ be32 n, b < 256 := by
  simp only [be32, List.mem_cons, List.not_mem_nil, or_false]
  rintro b (rfl | rfl | rfl | rfl) <;> omega

theorem be64_lt (n : Nat) : ∀ b ∈ be64 n, b < 256 := by
  simp only [be64, List.mem_cons, List.not_mem_nil, or_false]
  rintro b (rfl | rfl | rfl | rfl | rfl | rfl | rfl | rfl) <;> omega

/-- Decoding `be32val` distinguishes distinct 4-byte strings. -/
theorem be32val_inj {l l' : List Nat} (hl : l.length = 4) (hl' : l'.length = 4)
    (hb : ∀ b ∈ l, b < 256) (hb' : ∀ b ∈ l', b < 256) (hne : l ≠ l') :
    be32val l ≠ be32val l' := by
  obtain ⟨a, b, c, d, rfl⟩ : ∃ a b c d, l = [a, b, c, d] := by
    match l, hl with
    | [a, b, c, d], _ => exact ⟨a, b, c, d, rfl⟩
  obtain ⟨a', b', c', d', rfl⟩ : ∃ a b c d, l' = [a, b, c, d] := by
    match l', hl' with
    | [a, b, c, d], _ => exact ⟨a, b, c, d, rfl⟩
  simp only [List.mem_cons, List.not_mem_nil, or_false, forall_eq_or_imp, forall_eq] at hb hb'
  simp only [be32val, List.getD_cons_zero, List.getD_cons_succ]
  intro hv
  apply hne
  have : a = a' ∧ b = b' ∧ c = c' ∧ d = d' := by omega
  simp [this.1, this.2.1, this.2.2.1, this.2.2.2]

/-! ### CRC-32 (IEEE polynomial), `hash/crc32.ChecksumIEEE`

The standard reflected algorithm: state starts at `0xFFFFFFFF`; each byte
is XORed into the low bits and followed by eight shift steps (shift right,
conditionally XOR `0xEDB88320`); the final state is complemented. -/

/-- One bit step of the reflected CRC-32. -/
def crcShift (c : Nat) : Nat :=
  if c % 2 = 1 then (c / 2) ^^^ 0xEDB88320 else c / 2

/-- Process one byte. -/
def crcByte (c b : Nat) : Nat := crcShift^[8] (c ^^^ b)

/-- Go `crc32.ChecksumIEEE` over a byte string. -/
def crc32 (data : List Nat) : Nat :=
  (data.foldl crcByte 0xFFFFFFFF) ^^^ 0xFFFFFFFF

/-- A WAL record (`wal.Record`).  `rtype` is the raw `RecordType` byte
(`0 = Put`, `1 = Delete`); `Decode` never validates it, so it is kept as
a plain byte value. -/
structure WalRecord where
  rtype : Nat
  seqNum : Nat
  key : ByteStr
  value : ByteStr
deriving DecidableEq, Repr

/-- The payload bytes of a record:
`[type:1][seq:8][key_len:4][key][val_len:4][val]` (record.go lines 42-56). -/
def WalRecord.payload (r : WalRecord) : List Nat :=
  [r.rtype % 256] ++ be64 r.seqNum ++ be32 r.key.length ++ r.key ++
    be32 r.value.length ++ r.value

/-- Go `Record.Encode` (record.go lines 27-63): length field, checksum over
the payload, then the payload. -/
def WalRecord.encode (r : WalRecord) : List Nat :=
  be32 r.payload.length ++ be32 (crc32 r.payload) ++ r.payload

theorem payload_length (r : WalRecord) :
    r.payload.length = 17 + r.key.length + r.value.length := by
  simp [WalRecord.payload, be32, be64]
  omega

theorem encode_length (r : WalRecord) :
    r.encode.length = 25 + r.key.length + r.value.length := by
  simp [WalRecord.encode, be32, payload_length]
  omega

/-- Decode errors.  `panicked` is not a Go error value: it marks the Go
runtime panic (out-of-range index or slice) that `Decode` hits when the
checksum matches but the payload is shorter than the fields it parses. -/
inductive DecErr where
  | tooShort
  | truncated
  | badSum
  | panicked
deriving DecidableEq, Repr

/-- Slicing `buf[i : i+n]` with Go's bounds rule: panics (`none`) when
`i + n > len(buf)` (the buffers Go passes to `Decode` have
`cap = len`, being fresh `make([]byte, n)` allocations). -/
def slice? (buf : List Nat) (i n : Nat) : Option (List Nat) :=
  if i + n ≤ buf.length then some ((buf.drop i).take n) else none

/-- The field-parsing tail of `Decode` (record.go lines 84-104), reached
only after the checksum check; each Go index/slice expression is
bounds-checked, `none` meaning a runtime panic. -/
def parseBody (buf : List Nat) : Option WalRecord := do
  let t ← buf[8]?
  let seqB ← slice? buf 9 8
  let klB ← slice? buf 17 4
  let kl := be32val klB
  let key ← slice? buf 21 kl
  let vlB ← slice? buf (21 + kl) 4
  let vl := be32val vlB
  let val ← slice? buf (25 + kl) vl
  pure ⟨t, be64val seqB, key, val⟩

/-- Go `wal.Decode` (record.go lines 66-105): `payloadLen` is the big-endian
read of bytes 0-3 and `checksum` of bytes 4-7.  The Go expression
`8+payloadLen` (record.go lines 74 and 79) is `uint32` arithmetic, so it
wraps modulo `2 ^ 32`; when `payloadLen ≥ 2 ^ 32 - 8` the wrapped bound
falls below 8, the length check `len(buf) < int(8+payloadLen)` passes,
and the slice expression `buf[8 : 8+payloadLen]` panics with
`low > high` before any checksum is computed — modelled by the
`.panicked` branch in source order, right after the length check. -/
def decode (buf : List Nat) : Except DecErr WalRecord :=
  if buf.length < 8 then .error .tooShort
  else if buf.length < (8 + be32val (buf.take 4)) % 2 ^ 32 then .error .truncated
  else if (8 + be32val (buf.take 4)) % 2 ^ 32 < 8 then .error .panicked
  else if be32val ((buf.drop 4).take 4) ≠
      crc32 ((buf.drop 8).take ((8 + be32val (buf.take 4)) % 2 ^ 32 - 8)) then
    .error .badSum
  else
    match parseBody buf with
    | some r => .ok r
    | none => .error .panicked

/-- Decidable equality for decode results. -/
instance {e a : Type} [DecidableEq e] [DecidableEq a] :
    DecidableEq (Except e a) := fun x y =>
  match x, y with
  | .ok v, .ok w =>
    if h : v = w then .isTrue (by rw [h])
    else .isFalse (by intro hc; cases hc; exact h rfl)
  | .error v, .error w =>
    if h : v = w then .isTrue (by rw [h])
    else .isFalse (by intro hc; cases hc; exact h rfl)
  | .ok _, .error _ => .isFalse (by intro hc; cases hc)
  | .error _, .ok _ => .isFalse (by intro hc; cases hc)

/-- A well-formed record: the shape every record built and encoded by the
Go engine has (`RecordType` is `Put` or `Delete`, the sequence number is
a `uint64`, keys and values are byte strings, and the whole frame length
`8 + payload_len = 25 + key_len + val_len` fits 32-bit arithmetic).  The
last bound keeps `payload_len` below `2 ^ 32 - 8`: at and beyond that
point the `uint32` expression `8+payloadLen` in `Decode` and in
`Reader.ReadRecord` wraps and Go panics (see `decode`, `readRecord`). -/
def WfRecord (r : WalRecord) : Prop :=
  (r.rtype = 0 ∨ r.rtype = 1) ∧ r.seqNum < 2 ^ 64 ∧
    (∀ b ∈ r.key, b < 256) ∧ (∀ b ∈ r.value, b < 256) ∧
    25 + r.key.length + r.value.length < 2 ^ 32

instance : DecidablePred WfRecord := by
  unfold WfRecord
  infer_instance


/-! ### CRC-32 state bounds -/

theorem crcShift_lt {c : Nat} (h : c < 2 ^ 32) : crcShift c < 2 ^ 32 := by
  unfold crcShift
  by_cases hp : c % 2 = 1
  · rw [if_pos hp]
    exact Nat.xor_lt_two_pow (by omega) (by norm_num)
  · rw [if_neg hp]
    omega

theorem crcShift_iter_lt {c : Nat} (h : c < 2 ^ 32) (n : Nat) :
    crcShift^[n] c < 2 ^ 32 := by
  induction n generalizing c with
  | zero => simpa
  | succ m ih =>
    rw [Function.iterate_succ_apply]
    exact ih (crcShift_lt h)

theorem crcByte_lt {c b : Nat} (hc : c < 2 ^ 32) (hb : b < 256) :
    crcByte c b < 2 ^ 32 :=
  crcShift_iter_lt (Nat.xor_lt_two_pow hc (by omega)) 8

theorem crcFold_lt {data : List Nat} (hb : ∀ b ∈ data, b < 256) {c : Nat}
    (hc : c < 2 ^ 32) : data.foldl crcByte c < 2 ^ 32 := by
  induction data generalizing c with
  | nil => simpa
  | cons x xs ih =>
    simp only [List.foldl_cons]
    exact ih (fun b hbm => hb b (List.mem_cons_of_mem x hbm))
      (crcByte_lt hc (hb x (List.mem_cons_self x xs)))

theorem crc32_lt {data : List Nat} (hb : ∀ b ∈ data, b < 256) :
    crc32 data < 2 ^ 32 := by
  unfold crc32
  exact Nat.xor_lt_two_pow (crcFold_lt hb (by norm_num)) (by norm_num)

/-- All bytes of a well-formed record's payload are byte values. -/
theorem payload_bytes_lt {r : WalRecord} (hw : WfRecord r) :
    ∀ b ∈ r.payload, b < 256 := by
  obtain ⟨_, _, hkb, hvb, _⟩ := hw
  intro b hbm
  simp only [WalRecord.payload, List.append_assoc, List.mem_append,
    List.mem_cons, List.not_mem_nil, or_false] at hbm
  rcases hbm with rfl | h | h | h | h | h
  · omega
  · exact be64_lt _ b h
  · exact be32_lt _ b h
  · exact hkb b h
  · exact be32_lt _ b h
  · exact hvb b h

/-! ### Round trip: `Decode` inverts `Encode` on well-formed records -/

theorem take_pivot (a b : List Nat) (n : Nat) (h : n = a.length) :
    (a ++ b).take n = a := by
  subst h
  exact List.take_left a b

theorem drop_pivot (a b : List Nat) (n : Nat) (h : n = a.length) :
    (a ++ b).drop n = b := by
  subst h
  exact List.drop_left a b

theorem slice?_pivot (a b c : List Nat) (i n : Nat) (hi : i = a.length)
    (hn : n = b.length) : slice? (a ++ (b ++ c)) i n = some b := by
  subst hi hn
  have hle : a.length + b.length ≤ (a ++ (b ++ c)).length := by
    simp [List.length_append]
  rw [slice?, if_pos hle, List.drop_left a (b ++ c), take_pivot b c _ rfl]

theorem getElem?_pivot (a b : List Nat) (x : Nat) (i : Nat) (hi : i = a.length) :
    (a ++ (x :: b))[i]? = some x := by
  subst hi
  rw [List.getElem?_append_right (Nat.le_refl _)]
  simp

/-- Core round-trip lemma: decoding an encoded well-formed record
recovers the record. -/
theorem decode_encode_of_wf (r : WalRecord) (hw : WfRecord r) :
    decode r.encode = .ok r := by
  obtain ⟨ht, hs, hkb, hvb, hlen⟩ := hw
  have hplen : r.payload.length = 17 + r.key.length + r.value.length :=
    payload_length r
  have hpl32 : r.payload.length < 2 ^ 32 := by omega
  have hkl32 : r.key.length < 2 ^ 32 := by omega
  have hvl32 : r.value.length < 2 ^ 32 := by omega
  have hcrclt : crc32 r.payload < 2 ^ 32 :=
    crc32_lt (payload_bytes_lt ⟨ht, hs, hkb, hvb, hlen⟩)
  have henc : r.encode = be32 r.payload.length ++
      (be32 (crc32 r.payload) ++ r.payload) := by
    simp [WalRecord.encode, List.append_assoc]
  have hlenenc : r.encode.length = 8 + r.payload.length := by
    rw [henc]
    simp [be32, List.length_append]
    omega
  have htake4 : r.encode.take 4 = be32 r.payload.length := by
    rw [henc, take_pivot _ _ _ (be32_length _).symm]
  have hdrop4 : (r.encode.drop 4).take 4 = be32 (crc32 r.payload) := by
    rw [henc, drop_pivot _ _ _ (be32_length _).symm,
      take_pivot _ _ _ (be32_length _).symm]
  have hdrop8 : r.encode.drop 8 = r.payload := by
    have h2 : r.encode = (be32 r.payload.length ++ be32 (crc32 r.payload)) ++
        r.payload := by
      rw [henc, List.append_assoc]
    rw [h2, drop_pivot _ _ _ (by simp [be32])]
  have h8 : r.encode = (be32 r.payload.length ++ be32 (crc32 r.payload)) ++
      ((r.rtype % 256) :: (be64 r.seqNum ++ (be32 r.key.length ++
        (r.key ++ (be32 r.value.length ++ r.value))))) := by
    rw [henc, List.append_assoc]
    congr 2
    simp [WalRecord.payload, List.append_assoc]
  have hbody : parseBody r.encode = some r := by
    have ht8 : r.encode[8]? = some (r.rtype % 256) := by
      rw [h8]
      exact getElem?_pivot _ _ _ _ (by simp [be32])
    have hseq : slice? r.encode 9 8 = some (be64 r.seqNum) := by
      rw [show r.encode = ((be32 r.payload.length ++ be32 (crc32 r.payload)) ++
            [r.rtype % 256]) ++ (be64 r.seqNum ++ (be32 r.key.length ++
            (r.key ++ (be32 r.value.length ++ r.value)))) by
          rw [h8]; simp [List.append_assoc]]
      exact slice?_pivot _ _ _ _ _ (by simp [be32]) (be64_length _).symm
    have hkl : slice? r.encode 17 4 = some (be32 r.key.length) := by
      rw [show r.encode = (((be32 r.payload.length ++ be32 (crc32 r.payload)) ++
            [r.rtype % 256]) ++ be64 r.seqNum) ++ (be32 r.key.length ++
            (r.key ++ (be32 r.value.length ++ r.value))) by
          rw [h8]; simp [List.append_assoc]]
      exact slice?_pivot _ _ _ _ _ (by simp [be32, be64]) (be32_length _).symm
    have hkey : slice? r.encode 21 r.key.length = some r.key := by
      rw [show r.encode = ((((be32 r.payload.length ++ be32 (crc32 r.payload)) ++
            [r.rtype % 256]) ++ be64 r.seqNum) ++ be32 r.key.length) ++
            (r.key ++ (be32 r.value.length ++ r.value)) by
          rw [h8]; simp [List.append_assoc]]
      exact slice?_pivot _ _ _ _ _ (by simp [be32, be64]) rfl
    have hvl : slice? r.encode (21 + r.key.length) 4 =
        some (be32 r.value.length) := by
      rw [show r.encode = (((((be32 r.payload.length ++ be32 (crc32 r.payload)) ++
            [r.rtype % 256]) ++ be64 r.seqNum) ++ be32 r.key.length) ++ r.key) ++
            (be32 r.value.length ++ r.value) by
          rw [h8]; simp [List.append_assoc]]
      refine slice?_pivot _ _ _ _ _ ?_ (be32_length _).symm
      simp [be32, be64, List.length_append]
      omega
    have hval : slice? r.encode (25 + r.key.length) r.value.length =
        some r.value := by
      rw [show r.encode = ((((((be32 r.payload.length ++
            be32 (crc32 r.payload)) ++ [r.rtype % 256]) ++ be64 r.seqNum) ++
            be32 r.key.length) ++ r.key) ++ be32 r.value.length) ++
            (r.value ++ []) by
          rw [h8]; simp [List.append_assoc]]
      refine slice?_pivot _ _ _ _ _ ?_ rfl
      simp [be32, be64, List.length_append]
      omega
    have hrt : r.rtype % 256 = r.rtype := by
      rcases ht with h | h <;> simp [h]
    rw [parseBody, ht8]
    simp only [Option.bind_eq_bind, Option.some_bind, hseq, hkl, hkey, hvl, hval,
      be32val_be32 hkl32, be32val_be32 hvl32]
    simp [be64val_be64 hs, hrt, be32val_be32 hkl32, be32val_be32 hvl32]
  have hplv : be32val (r.encode.take 4) = r.payload.length := by
    rw [htake4]
    exact be32val_be32 hpl32
  have hcsv : be32val ((r.encode.drop 4).take 4) = crc32 r.payload := by
    rw [hdrop4]
    exact be32val_be32 hcrclt
  have hmod : (8 + r.payload.length) % 2 ^ 32 = 8 + r.payload.length :=
    Nat.mod_eq_of_lt (by omega)
  have hsub : 8 + r.payload.length - 8 = r.payload.length := by omega
  rw [decode, if_neg (by omega), hplv, hmod, hsub, hdrop8, List.take_length,
    if_neg (by omega), if_neg (by omega), hcsv, if_neg (by simp), hbody]

/-! ### CRC-32 detects any single changed byte

The bit step of the reflected CRC is injective on 32-bit states, so two
payloads that differ in exactly one byte always fold to different CRC
states and hence different checksums. -/

theorem xor_cancel_right {a b c : Nat} (h : a ^^^ c = b ^^^ c) : a = b := by
  have h2 := congrArg (· ^^^ c) h
  simpa [Nat.xor_assoc] using h2

theorem xor_cancel_left {a b c : Nat} (h : c ^^^ a = c ^^^ b) : a = b := by
  rw [Nat.xor_comm c a, Nat.xor_comm c b] at h
  exact xor_cancel_right h

theorem crcShift_inj {a b : Nat} (ha : a < 2 ^ 32) (hb : b < 2 ^ 32)
    (h : crcShift a = crcShift b) : a = b := by
  unfold crcShift at h
  by_cases hpa : a % 2 = 1 <;> by_cases hpb : b % 2 = 1
  · rw [if_pos hpa, if_pos hpb] at h
    have := xor_cancel_right h
    omega
  · rw [if_pos hpa, if_neg hpb] at h
    have h31 : ((a / 2) ^^^ 0xEDB88320).testBit 31 = (b / 2).testBit 31 := by
      rw [h]
    rw [Nat.testBit_xor, Nat.testBit_eq_false_of_lt (by omega : a / 2 < 2 ^ 31),
      Nat.testBit_eq_false_of_lt (by omega : b / 2 < 2 ^ 31)] at h31
    simp at h31
    exact absurd h31 (by decide)
  · rw [if_neg hpa, if_pos hpb] at h
    have h31 : (a / 2).testBit 31 = ((b / 2) ^^^ 0xEDB88320).testBit 31 := by
      rw [h]
    rw [Nat.testBit_xor, Nat.testBit_eq_false_of_lt (by omega : a / 2 < 2 ^ 31),
      Nat.testBit_eq_false_of_lt (by omega : b / 2 < 2 ^ 31)] at h31
    simp at h31
    exact absurd h31.symm (by decide)
  · rw [if_neg hpa, if_neg hpb] at h
    omega

theorem crcShift_iter_inj (n : Nat) {a b : Nat} (ha : a < 2 ^ 32)
    (hb : b < 2 ^ 32) (h : crcShift^[n] a = crcShift^[n] b) : a = b := by
  induction n generalizing a b with
  | zero => simpa using h
  | succ m ih =>
    rw [Function.iterate_succ_apply, Function.iterate_succ_apply] at h
    exact crcShift_inj ha hb (ih (crcShift_lt ha) (crcShift_lt hb) h)

theorem crcByte_state_ne {c1 c2 b : Nat} (h1 : c1 < 2 ^ 32) (h2 : c2 < 2 ^ 32)
    (hb : b < 256) (hne : c1 ≠ c2) : crcByte c1 b ≠ crcByte c2 b := by
  intro h
  apply hne
  have := crcShift_iter_inj 8 (Nat.xor_lt_two_pow h1 (by omega))
    (Nat.xor_lt_two_pow h2 (by omega)) h
  exact xor_cancel_right this

theorem crcByte_byte_ne {c b1 b2 : Nat} (hc : c < 2 ^ 32) (hb1 : b1 < 256)
    (hb2 : b2 < 256) (hne : b1 ≠ b2) : crcByte c b1 ≠ crcByte c b2 := by
  intro h
  apply hne
  have := crcShift_iter_inj 8 (Nat.xor_lt_two_pow hc (by omega))
    (Nat.xor_lt_two_pow hc (by omega)) h
  exact xor_cancel_left this

theorem crcFold_state_ne {l : List Nat} (hl : ∀ b ∈ l, b < 256)
    {c1 c2 : Nat} (h1 : c1 < 2 ^ 32) (h2 : c2 < 2 ^ 32) (hne : c1 ≠ c2) :
    l.foldl crcByte c1 ≠ l.foldl crcByte c2 := by
  induction l generalizing c1 c2 with
  | nil => simpa
  | cons x xs ih =>
    simp only [List.foldl_cons]
    have hx : x < 256 := hl x (List.mem_cons_self x xs)
    exact ih (fun b hbm => hl b (List.mem_cons_of_mem x hbm))
      (crcByte_lt h1 hx) (crcByte_lt h2 hx)
      (crcByte_state_ne h1 h2 hx hne)

/-- Changing one byte of a byte string always changes its CRC-32. -/
theorem crc32_single_byte_ne {pre suf : List Nat} {b1 b2 : Nat}
    (hpre : ∀ x ∈ pre, x < 256) (hsuf : ∀ x ∈ suf, x < 256)
    (hb1 : b1 < 256) (hb2 : b2 < 256) (hne : b1 ≠ b2) :
    crc32 (pre ++ b1 :: suf) ≠ crc32 (pre ++ b2 :: suf) := by
  unfold crc32
  intro h
  have h2 := xor_cancel_right h
  rw [List.foldl_append, List.foldl_append] at h2
  have hc : pre.foldl crcByte 0xFFFFFFFF < 2 ^ 32 :=
    crcFold_lt hpre (by norm_num)
  simp only [List.foldl_cons] at h2
  exact crcFold_state_ne hsuf (crcByte_lt hc hb1) (crcByte_lt hc hb2)
    (crcByte_byte_ne hc hb1 hb2 hne) h2

/-! ### Single-bit corruption of an encoded frame -/

/-- Flip bit `k` (0 = least significant) of byte `i` of a byte string;
out-of-range positions leave the string unchanged. -/
def flipBit : List Nat → Nat → Nat → List Nat
  | [], _, _ => []
  | x :: xs, 0, k => (x ^^^ 2 ^ k) :: xs
  | x :: xs, i + 1, k => x :: flipBit xs i k

theorem flipBit_length (l : List Nat) (i k : Nat) :
    (flipBit l i k).length = l.length := by
  induction l generalizing i with
  | nil => rfl
  | cons x xs ih =>
    cases i with
    | zero => rfl
    | succ j => simp [flipBit, ih]

theorem flipBit_append_right (a b : List Nat) (i k : Nat) (h : a.length ≤ i) :
    flipBit (a ++ b) i k = a ++ flipBit b (i - a.length) k := by
  induction a generalizing i with
  | nil => simp
  | cons x xs ih =>
    cases i with
    | zero => simp at h
    | succ j =>
      simp only [List.cons_append, flipBit, List.length_cons, List.append_eq]
      have hidx : j + 1 - (xs.length + 1) = j - xs.length := by omega
      rw [ih j (by simpa using h), hidx]

theorem flipBit_append_left (a b : List Nat) (i k : Nat) (h : i < a.length) :
    flipBit (a ++ b) i k = flipBit a i k ++ b := by
  induction a generalizing i with
  | nil => simp at h
  | cons x xs ih =>
    cases i with
    | zero => simp [flipBit]
    | succ j =>
      simp only [List.cons_append, flipBit, List.append_eq]
      rw [ih j (by simpa using h)]

theorem flipBit_decomp (l : List Nat) (j k : Nat) (hj : j < l.length) :
    l = l.take j ++ l.getD j 0 :: l.drop (j + 1) ∧
    flipBit l j k = l.take j ++ (l.getD j 0 ^^^ 2 ^ k) :: l.drop (j + 1) := by
  induction l generalizing j with
  | nil => simp at hj
  | cons x xs ih =>
    cases j with
    | zero => simp [flipBit]
    | succ m =>
      have hm : m < xs.length := by simpa using hj
      obtain ⟨h1, h2⟩ := ih m hm
      constructor
      · simpa [List.take_succ_cons, List.drop_succ_cons] using h1
      · simpa [flipBit, List.take_succ_cons, List.drop_succ_cons] using h2

/-- XORing in a power of two always changes a natural number. -/
theorem xor_two_pow_ne (b k : Nat) : b ^^^ 2 ^ k ≠ b := by
  intro h
  have hb := congrArg (fun n => Nat.testBit n k) h
  simp only [Nat.testBit_xor, Nat.testBit_two_pow_self] at hb
  cases hbit : b.testBit k <;> simp [hbit] at hb

theorem flipBit_ne (l : List Nat) (j k : Nat) (hj : j < l.length) :
    flipBit l j k ≠ l := by
  induction l generalizing j with
  | nil => simp at hj
  | cons x xs ih =>
    cases j with
    | zero =>
      simp only [flipBit, ne_eq, List.cons.injEq, not_and]
      intro hx
      exact absurd hx (xor_two_pow_ne x k)
    | succ m =>
      simp only [flipBit, ne_eq, List.cons.injEq, true_and]
      exact ih m (by simpa using hj)

theorem flipBit_bytes_lt {l : List Nat} (hl : ∀ b ∈ l, b < 256) (j k : Nat)
    (hk : k < 8) : ∀ b ∈ flipBit l j k, b < 256 := by
  induction l generalizing j with
  | nil => simp [flipBit]
  | cons x xs ih =>
    have hx : x < 256 := hl x (List.mem_cons_self x xs)
    have hxs : ∀ b ∈ xs, b < 256 := fun b hb => hl b (List.mem_cons_of_mem x hb)
    cases j with
    | zero =>
      intro b hb
      simp only [flipBit, List.mem_cons] at hb
      rcases hb with rfl | hb2
      · have h2k : (2 : Nat) ^ k < 2 ^ 8 := Nat.pow_lt_pow_right (by omega) hk
        exact Nat.xor_lt_two_pow (n := 8) (by omega) (by omega)
      · exact hxs b hb2
    | succ m =>
      intro b hb
      simp only [flipBit, List.mem_cons] at hb
      rcases hb with rfl | hb2
      · exact hx
      · exact ih hxs m b hb2

theorem getD_mem_of_lt {l : List Nat} {n : Nat} (h : n < l.length) :
    l.getD n 0 ∈ l := by
  rw [List.getD_eq_getElem l 0 h]
  exact List.getElem_mem h

/-- Flipping any single bit inside the checksum field (bytes 4-7) or the
payload (bytes 8 and up) of an encoded well-formed frame makes `Decode`
fail with the checksum-mismatch error. -/
theorem decode_flip_badSum (r : WalRecord) (hw : WfRecord r) (i k : Nat)
    (hk : k < 8)
    (hi : (4 ≤ i ∧ i < 8) ∨ (8 ≤ i ∧ i < 8 + r.payload.length)) :
    decode (flipBit r.encode i k) = .error .badSum := by
  obtain ⟨ht, hs, hkb, hvb, hlen⟩ := hw
  have hpb : ∀ b ∈ r.payload, b < 256 :=
    payload_bytes_lt ⟨ht, hs, hkb, hvb, hlen⟩
  have hplen : r.payload.length = 17 + r.key.length + r.value.length :=
    payload_length r
  have hpl32 : r.payload.length < 2 ^ 32 := by omega
  have hcrclt : crc32 r.payload < 2 ^ 32 := crc32_lt hpb
  have henc : r.encode = be32 r.payload.length ++
      (be32 (crc32 r.payload) ++ r.payload) := by
    simp [WalRecord.encode, List.append_assoc]
  have hlenenc : r.encode.length = 8 + r.payload.length := by
    rw [henc]
    simp [be32, List.length_append]
    omega
  have hflen : (flipBit r.encode i k).length = 8 + r.payload.length := by
    rw [flipBit_length, hlenenc]
  rcases hi with ⟨hi4, hi8⟩ | ⟨hi8, hitop⟩
  · -- bit inside the checksum field
    have hf : flipBit r.encode i k = be32 r.payload.length ++
        (flipBit (be32 (crc32 r.payload)) (i - 4) k ++ r.payload) := by
      rw [henc, flipBit_append_right _ _ _ _ (by simp [be32]; omega)]
      rw [flipBit_append_left _ _ _ _ (by simp [be32]; omega)]
      simp [be32]
    have hCb : ∀ b ∈ be32 (crc32 r.payload), b < 256 := be32_lt _
    have hC'b : ∀ b ∈ flipBit (be32 (crc32 r.payload)) (i - 4) k, b < 256 :=
      flipBit_bytes_lt hCb (i - 4) k hk
    have hC'len : (flipBit (be32 (crc32 r.payload)) (i - 4) k).length = 4 := by
      rw [flipBit_length]
      simp [be32]
    have hC'ne : flipBit (be32 (crc32 r.payload)) (i - 4) k ≠
        be32 (crc32 r.payload) :=
      flipBit_ne _ (i - 4) k (by simp [be32]; omega)
    have hsum : be32val (flipBit (be32 (crc32 r.payload)) (i - 4) k) ≠
        crc32 r.payload := by
      have h2 := be32val_inj hC'len (by simp [be32]) hC'b hCb hC'ne
      rwa [be32val_be32 hcrclt] at h2
    have htk4 : (flipBit r.encode i k).take 4 = be32 r.payload.length := by
      rw [hf, take_pivot _ _ _ (be32_length _).symm]
    have hdp4 : ((flipBit r.encode i k).drop 4).take 4 =
        flipBit (be32 (crc32 r.payload)) (i - 4) k := by
      rw [hf, drop_pivot _ _ _ (be32_length _).symm, take_pivot _ _ _ hC'len.symm]
    have hdp8 : (flipBit r.encode i k).drop 8 = r.payload := by
      rw [hf, show be32 r.payload.length ++
          (flipBit (be32 (crc32 r.payload)) (i - 4) k ++ r.payload) =
          (be32 r.payload.length ++ flipBit (be32 (crc32 r.payload)) (i - 4) k)
            ++ r.payload from by simp [List.append_assoc]]
      exact drop_pivot _ _ _ (by rw [List.length_append, be32_length, hC'len])
    have h8pl : 8 + r.payload.length < 2 ^ 32 := by omega
    have hmod : (8 + r.payload.length) % 2 ^ 32 = 8 + r.payload.length :=
      Nat.mod_eq_of_lt h8pl
    have hsub : 8 + r.payload.length - 8 = r.payload.length := by omega
    rw [decode, if_neg (by omega), htk4, be32val_be32 hpl32, hmod, hsub,
      hdp4, hdp8, List.take_length, if_neg (by omega), if_neg (by omega),
      if_pos hsum]
  · -- bit inside the payload
    have hjlt : i - 8 < r.payload.length := by omega
    have hf : flipBit r.encode i k = be32 r.payload.length ++
        (be32 (crc32 r.payload) ++ flipBit r.payload (i - 8) k) := by
      rw [henc, show be32 r.payload.length ++ (be32 (crc32 r.payload) ++
          r.payload) = (be32 r.payload.length ++ be32 (crc32 r.payload)) ++
          r.payload from by simp [List.append_assoc]]
      rw [flipBit_append_right _ _ _ _ (by simp [be32, List.length_append]; omega)]
      rw [show (be32 r.payload.length ++ be32 (crc32 r.payload)).length = 8
        from by simp [be32]]
      simp [List.append_assoc]
    have hP'len : (flipBit r.payload (i - 8) k).length = r.payload.length :=
      flipBit_length _ _ _
    obtain ⟨hdec1, hdec2⟩ := flipBit_decomp r.payload (i - 8) k hjlt
    have hbyte : r.payload.getD (i - 8) 0 < 256 := hpb _ (getD_mem_of_lt hjlt)
    have hsum : crc32 (flipBit r.payload (i - 8) k) ≠ crc32 r.payload := by
      rw [hdec2]
      conv_rhs => rw [hdec1]
      exact crc32_single_byte_ne
        (fun x hx => hpb x (List.take_subset _ _ hx))
        (fun x hx => hpb x (List.drop_subset _ _ hx))
        (by
          have h2k : (2 : Nat) ^ k < 2 ^ 8 := Nat.pow_lt_pow_right (by omega) hk
          exact Nat.xor_lt_two_pow (n := 8) (by omega) (by omega))
        hbyte
        (fun h => xor_two_pow_ne _ k h)
    have htk4 : (flipBit r.encode i k).take 4 = be32 r.payload.length := by
      rw [hf, take_pivot _ _ _ (be32_length _).symm]
    have hdp4 : ((flipBit r.encode i k).drop 4).take 4 =
        be32 (crc32 r.payload) := by
      rw [hf, drop_pivot _ _ _ (be32_length _).symm,
        take_pivot _ _ _ (be32_length _).symm]
    have hdp8 : (flipBit r.encode i k).drop 8 = flipBit r.payload (i - 8) k := by
      rw [hf, show be32 r.payload.length ++ (be32 (crc32 r.payload) ++
          flipBit r.payload (i - 8) k) = (be32 r.payload.length ++
          be32 (crc32 r.payload)) ++ flipBit r.payload (i - 8) k from by
          simp [List.append_assoc]]
      exact drop_pivot _ _ _ (by simp [be32])
    have h8pl : 8 + r.payload.length < 2 ^ 32 := by omega
    have hmod : (8 + r.payload.length) % 2 ^ 32 = 8 + r.payload.length :=
      Nat.mod_eq_of_lt h8pl
    have hsub : 8 + r.payload.length - 8 = r.payload.length := by omega
    rw [decode, if_neg (by omega), htk4, be32val_be32 hpl32, hmod, hsub,
      hdp4, hdp8, if_neg (by omega), if_neg (by omega)]
    rw [show (flipBit r.payload (i - 8) k).take r.payload.length =
      flipBit r.payload (i - 8) k from by rw [← hP'len, List.take_length]]
    rw [if_pos (by
      rw [be32val_be32 hcrclt]
      exact fun h => hsum h.symm)]

/-! ## WAL reader (`Reader.ReadRecord` / `Reader.Replay`)

The reader consumes a byte stream from the front; the model carries the
remaining bytes.  `io.ReadFull` semantics: a request for `n > 0` bytes
with nothing left is `EOF`; a partial read is `ErrUnexpectedEOF`. -/

/-- Outcome of `io.ReadFull(reader, buf)` on the remaining stream. -/
inductive ReadOut where
  | ok (bytes rest : List Nat)
  | eof
  | unexpEof
deriving DecidableEq, Repr

/-- Go `io.ReadFull` for `n` bytes against the remaining stream. -/
def readFull (data : List Nat) (n : Nat) : ReadOut :=
  if n ≤ data.length then .ok (data.take n) (data.drop n)
  else if data.length = 0 then .eof
  else .unexpEof

/-- Outcome of one `Reader.ReadRecord` call. -/
inductive RecOut where
  | ok (r : WalRecord) (rest : List Nat)
  | eof
  | unexpEof
  | failed (e : DecErr)
  | panicked
deriving DecidableEq, Repr

/-- Go `Reader.ReadRecord` (reader file lines 261-301): read the 4-byte
length, the 4-byte checksum, then the payload; verify the checksum;
reconstruct the frame and `Decode` it.  Read errors propagate as they
are.  Both branches after the payload read rebuild the frame with
`fullBuf := make([]byte, 8+payloadLen)` (lines 286 and 295), whose size
is computed in `uint32`: for `payloadLen ≥ 2 ^ 32 - 8` the size wraps
below 8 and the following `fullBuf[0:4]` / `fullBuf[4:8]` slice panics —
in the checksum-mismatch branch and in the success branch alike — so the
model places this panic right before the checksum comparison, to which
the Go order is observably equivalent.  Otherwise the reader's checksum
comparison uses the same CRC over the same payload bytes as `Decode`, so
`Decode` can then only succeed or panic (`payload_len` shorter than the
fixed fields). -/
def readRecord (data : List Nat) : RecOut :=
  match readFull data 4 with
  | .eof => .eof
  | .unexpEof => .unexpEof
  | .ok lenB r1 =>
    match readFull r1 4 with
    | .eof => .eof
    | .unexpEof => .unexpEof
    | .ok sumB r2 =>
      match readFull r2 (be32val lenB) with
      | .eof => .eof
      | .unexpEof => .unexpEof
      | .ok payload r3 =>
        if (8 + be32val lenB) % 2 ^ 32 < 8 then .panicked
        else if be32val sumB ≠ crc32 payload then .failed .badSum
        else
          match decode (lenB ++ (sumB ++ payload)) with
          | .ok rec => .ok rec r3
          | .error .panicked => .panicked
          | .error e => .failed e

/-- A successful `readFull` consumes exactly `n` bytes. -/
theorem readFull_ok_len {data : List Nat} {n : Nat} {bs rest : List Nat}
    (h : readFull data n = .ok bs rest) : rest.length + n = data.length := by
  unfold readFull at h
  split at h
  · cases h
    simp only [List.length_drop]
    omega
  · split at h <;> simp at h

/-- A successful `ReadRecord` consumes at least the 8 header bytes. -/
theorem readRecord_ok_lt {data : List Nat} {r : WalRecord} {rest : List Nat}
    (h : readRecord data = .ok r rest) : rest.length < data.length := by
  unfold readRecord at h
  split at h <;> try simp at h
  next lenB r1 heq1 =>
  split at h <;> try simp at h
  next sumB r2 heq2 =>
  split at h <;> try simp at h
  next payload r3 heq3 =>
  have h1 := readFull_ok_len heq1
  have h2 := readFull_ok_len heq2
  have h3 := readFull_ok_len heq3
  split at h <;> try simp at h
  split at h <;> try simp at h
  split at h <;> simp at h
  obtain ⟨-, rfl⟩ := h
  omega

/-- Result of `Reader.Replay` with a callback that never fails, together
with the records delivered to the callback.  `errFailed` carries the
surfaced error (`badSum` for a checksum mismatch); `panicked` marks a Go
runtime panic inside `Decode`. -/
inductive RepRes where
  | normal (recs : List WalRecord)
  | errUnexpEof
  | errFailed (e : DecErr)
  | panicked
deriving DecidableEq, Repr

/-- The `Reader.Replay` loop (reader file lines 237-258): `EOF` ends
replay normally; `ErrUnexpectedEOF` ends it normally unless no record
has been delivered yet, in which case the error is returned; any other
error is returned; otherwise the record is delivered and the loop
continues. -/
def replayAux (data : List Nat) (count : Nat) (acc : List WalRecord) : RepRes :=
  match h : readRecord data with
  | .ok r rest => replayAux rest (count + 1) (acc ++ [r])
  | .eof => .normal acc
  | .unexpEof => if count = 0 then .errUnexpEof else .normal acc
  | .failed e => .errFailed e
  | .panicked => .panicked
termination_by data.length
decreasing_by exact readRecord_ok_lt h

/-- Go `Reader.Replay` on a file's byte contents. -/
def replay (data : List Nat) : RepRes := replayAux data 0 []

/-- Concatenation of encoded frames: the WAL file contents after
appending these records in order. -/
def encodeAll : List WalRecord → List Nat
  | [] => []
  | r :: rs => r.encode ++ encodeAll rs

/-- Reading at the front of a well-formed frame yields exactly that
record and consumes exactly the frame. -/
theorem readRecord_encode (r : WalRecord) (hw : WfRecord r) (rest : List Nat) :
    readRecord (r.encode ++ rest) = .ok r rest := by
  have hpb : ∀ b ∈ r.payload, b < 256 := payload_bytes_lt hw
  have hplen : r.payload.length = 17 + r.key.length + r.value.length :=
    payload_length r
  have hpl32 : r.payload.length < 2 ^ 32 := by
    obtain ⟨-, -, -, -, h5⟩ := hw
    omega
  have hcrclt : crc32 r.payload < 2 ^ 32 := crc32_lt hpb
  have henc : r.encode ++ rest = be32 r.payload.length ++
      (be32 (crc32 r.payload) ++ (r.payload ++ rest)) := by
    simp [WalRecord.encode, List.append_assoc]
  have h1 : readFull (r.encode ++ rest) 4 = .ok (be32 r.payload.length)
      (be32 (crc32 r.payload) ++ (r.payload ++ rest)) := by
    rw [henc, readFull, if_pos (by simp [be32, List.length_append]),
      take_pivot _ _ _ (be32_length _).symm, drop_pivot _ _ _ (be32_length _).symm]
  have h2 : readFull (be32 (crc32 r.payload) ++ (r.payload ++ rest)) 4 =
      .ok (be32 (crc32 r.payload)) (r.payload ++ rest) := by
    rw [readFull, if_pos (by simp [be32, List.length_append]),
      take_pivot _ _ _ (be32_length _).symm, drop_pivot _ _ _ (be32_length _).symm]
  have h3 : readFull (r.payload ++ rest) r.payload.length =
      .ok r.payload rest := by
    rw [readFull, if_pos (by simp [List.length_append]),
      take_pivot _ _ _ rfl, drop_pivot _ _ _ rfl]
  have h8pl : 8 + r.payload.length < 2 ^ 32 := by
    obtain ⟨-, -, -, -, h5⟩ := hw
    omega
  simp only [readRecord, h1, h2, h3, be32val_be32 hcrclt, be32val_be32 hpl32,
    Nat.mod_eq_of_lt h8pl]
  rw [if_neg (by omega), if_neg (by simp)]
  rw [show be32 r.payload.length ++ (be32 (crc32 r.payload) ++ r.payload) =
    r.encode from (by simp [WalRecord.encode, List.append_assoc])]
  rw [decode_encode_of_wf r hw]

/-- Stepping `replayAux` over one well-formed frame. -/
theorem replayAux_encode_step (r : WalRecord) (hw : WfRecord r)
    (rest : List Nat) (count : Nat) (acc : List WalRecord) :
    replayAux (r.encode ++ rest) count acc =
      replayAux rest (count + 1) (acc ++ [r]) := by
  rw [replayAux, readRecord_encode r hw rest]

/-- Stepping `replayAux` over a sequence of well-formed frames. -/
theorem replayAux_encodeAll (recs : List WalRecord)
    (hw : ∀ r ∈ recs, WfRecord r) (rest : List Nat) (count : Nat)
    (acc : List WalRecord) :
    replayAux (encodeAll recs ++ rest) count acc =
      replayAux rest (count + recs.length) (acc ++ recs) := by
  induction recs generalizing count acc with
  | nil => simp [encodeAll]
  | cons r rs ih =>
    have hwr : WfRecord r := hw r (List.mem_cons_self r rs)
    have hwrs : ∀ x ∈ rs, WfRecord x := fun x hx => hw x (List.mem_cons_of_mem r hx)
    rw [show encodeAll (r :: rs) ++ rest = r.encode ++ (encodeAll rs ++ rest)
      from by simp [encodeAll, List.append_assoc]]
    rw [replayAux_encode_step r hwr _ count acc, ih hwrs]
    simp [List.append_assoc]
    congr 1
    omega

/-- Reading at a torn tail — a proper, possibly empty, byte-level prefix
of a single well-formed frame — yields `EOF` or `ErrUnexpectedEOF`,
never a record and never a checksum error. -/
theorem readRecord_torn (r0 : WalRecord) (hw : WfRecord r0) (t s : List Nat)
    (hs : t ++ s = r0.encode) (hsne : s ≠ []) :
    readRecord t = .eof ∨ readRecord t = .unexpEof := by
  have hpl : r0.payload.length = 17 + r0.key.length + r0.value.length :=
    payload_length r0
  have hpl32 : r0.payload.length < 2 ^ 32 := by
    obtain ⟨-, -, -, -, h5⟩ := hw
    omega
  have henclen : r0.encode.length = 25 + r0.key.length + r0.value.length :=
    encode_length r0
  have hlen : t.length + s.length = r0.encode.length := by
    rw [← hs]
    simp
  have hslen : 1 ≤ s.length := List.length_pos.mpr hsne
  by_cases h4 : 4 ≤ t.length
  · have htk : t.take 4 = be32 r0.payload.length := by
      have hta : (t ++ s).take 4 = t.take 4 := List.take_append_of_le_length h4
      rw [← hta, hs, show r0.encode = be32 r0.payload.length ++
        (be32 (crc32 r0.payload) ++ r0.payload) from by
          simp [WalRecord.encode, List.append_assoc],
        take_pivot _ _ _ (be32_length _).symm]
    have h1 : readFull t 4 = .ok (t.take 4) (t.drop 4) := by
      rw [readFull, if_pos h4]
    by_cases h8 : 8 ≤ t.length
    · have h2 : readFull (t.drop 4) 4 = .ok ((t.drop 4).take 4)
          ((t.drop 4).drop 4) := by
        rw [readFull, if_pos (by simp [List.length_drop]; omega)]
      have h3cond : ¬ (be32val (t.take 4) ≤ ((t.drop 4).drop 4).length) := by
        rw [htk, be32val_be32 hpl32]
        simp only [List.length_drop]
        omega
      simp only [readRecord, h1, h2]
      rw [readFull, if_neg h3cond]
      by_cases hz : ((t.drop 4).drop 4).length = 0
      · rw [if_pos hz]
        left
        rfl
      · rw [if_neg hz]
        right
        rfl
    · simp only [readRecord, h1]
      rw [readFull, if_neg (by simp only [List.length_drop]; omega)]
      by_cases hz : (t.drop 4).length = 0
      · rw [if_pos hz]
        left
        rfl
      · rw [if_neg hz]
        right
        rfl
  · rw [readRecord, readFull, if_neg (by omega)]
    by_cases h0 : t.length = 0
    · rw [if_pos h0]
      left
      rfl
    · rw [if_neg h0]
      right
      rfl

/-! ## Operation sequences against a table

Reachable `Skiplist` states are exactly those built by a finite sequence
of `Put`/`Delete` calls on a fresh table. -/

/-- One table operation. -/
inductive Op where
  | put (key val : ByteStr) (seq : Nat)
  | del (key : ByteStr) (seq : Nat)
deriving DecidableEq, Repr

/-- The key an operation addresses. -/
def Op.key : Op → ByteStr
  | .put k _ _ => k
  | .del k _ => k

/-- The sequence number an operation carries. -/
def Op.seq : Op → Nat
  | .put _ _ s => s
  | .del _ s => s

/-- The version record the operation stores when accepted. -/
def Op.entry : Op → Entry
  | .put _ v s => ⟨s, v, false⟩
  | .del _ s => ⟨s, [], true⟩

theorem Op.entry_seq (op : Op) : op.entry.seq = op.seq := by
  cases op <;> rfl

/-- Apply one operation (`Skiplist.Put` / `Skiplist.Delete`). -/
def applyOp (s : Skiplist) : Op → Skiplist
  | .put k v sq => s.put k v sq
  | .del k sq => s.del k sq

/-- Apply a sequence of operations to a fresh table, in order. -/
def applyOps (ops : List Op) : Skiplist := ops.foldl applyOp []

/-- Fold step selecting the highest-sequence operation addressing `k`. -/
def winnerStep (k : ByteStr) : Option Op → Op → Option Op
  | none, op => if op.key = k then some op else none
  | some w, op =>
    if op.key = k then (if w.seq < op.seq then some op else some w) else some w

/-- The highest-sequence operation addressing `k` in the sequence
(`none` when no operation addresses `k`). -/
def winner (ops : List Op) (k : ByteStr) : Option Op :=
  ops.foldl (winnerStep k) none

/-- Two operations on the same key carry distinct sequence numbers. -/
abbrev DistinctSeqPerKey (ops : List Op) : Prop :=
  List.Pairwise (fun o1 o2 => o1.key = o2.key → o1.seq ≠ o2.seq) ops

theorem winner_fold_mem (k : ByteStr) :
    ∀ (ops : List Op) (acc : Option Op) (w : Op),
    ops.foldl (winnerStep k) acc = some w →
    (w ∈ ops ∧ w.key = k) ∨ acc = some w := by
  intro ops
  induction ops with
  | nil => exact fun acc w h => Or.inr h
  | cons op rest ih =>
    intro acc w h
    rcases ih (winnerStep k acc op) w h with ⟨hm, hk⟩ | hacc
    · exact Or.inl ⟨List.mem_cons_of_mem op hm, hk⟩
    · by_cases hko : op.key = k
      · cases acc with
        | none =>
          rw [winnerStep, if_pos hko] at hacc
          cases hacc
          exact Or.inl ⟨List.mem_cons_self op rest, hko⟩
        | some w' =>
          rw [winnerStep, if_pos hko] at hacc
          by_cases hw : w'.seq < op.seq
          · rw [if_pos hw] at hacc
            cases hacc
            exact Or.inl ⟨List.mem_cons_self op rest, hko⟩
          · rw [if_neg hw] at hacc
            exact Or.inr hacc
      · cases acc with
        | none =>
          rw [winnerStep, if_neg hko] at hacc
          simp at hacc
        | some w' =>
          rw [winnerStep, if_neg hko] at hacc
          exact Or.inr hacc

theorem findEntry_applyOp_ne (s : Skiplist) (op : Op) (k : ByteStr)
    (hne : op.key ≠ k) : findEntry (applyOp s op) k = findEntry s k := by
  have hne2 : k ≠ op.key := fun h => hne h.symm
  cases op with
  | put ko v sq =>
    simp only [applyOp, Skiplist.put]
    cases findEntry s ko with
    | none => exact findEntry_putEntry_ne s ko k _ hne2
    | some cur =>
      by_cases h : sq ≤ cur.seq
      · simp [h]
      · simp only [if_neg h]
        exact findEntry_putEntry_ne s ko k _ hne2
  | del ko sq =>
    simp only [applyOp, Skiplist.del]
    cases findEntry s ko with
    | none => exact findEntry_putEntry_ne s ko k _ hne2
    | some cur =>
      by_cases h : sq ≤ cur.seq
      · simp [h]
      · simp only [if_neg h]
        exact findEntry_putEntry_ne s ko k _ hne2

theorem findEntry_applyOp_self (s : Skiplist) (op : Op)
    (hnone : findEntry s op.key = none) :
    findEntry (applyOp s op) op.key = some op.entry := by
  cases op with
  | put ko v sq =>
    simp only [applyOp, Skiplist.put, Op.key] at hnone ⊢
    rw [hnone]
    exact findEntry_putEntry_self s ko _
  | del ko sq =>
    simp only [applyOp, Skiplist.del, Op.key] at hnone ⊢
    rw [hnone]
    exact findEntry_putEntry_self s ko _

theorem findEntry_applyOp_accept (s : Skiplist) (op : Op) (cur : Entry)
    (hcur : findEntry s op.key = some cur) (hseq : cur.seq < op.seq) :
    findEntry (applyOp s op) op.key = some op.entry := by
  cases op with
  | put ko v sq =>
    simp only [Op.key] at hcur
    simp only [Op.seq] at hseq
    simp only [applyOp, Skiplist.put, Op.key, Op.entry, hcur]
    rw [if_neg (by omega)]
    exact findEntry_putEntry_self s ko _
  | del ko sq =>
    simp only [Op.key] at hcur
    simp only [Op.seq] at hseq
    simp only [applyOp, Skiplist.del, Op.key, Op.entry, hcur]
    rw [if_neg (by omega)]
    exact findEntry_putEntry_self s ko _

theorem applyOp_reject (s : Skiplist) (op : Op) (cur : Entry)
    (hcur : findEntry s op.key = some cur) (hseq : op.seq ≤ cur.seq) :
    applyOp s op = s := by
  cases op with
  | put ko v sq =>
    simp only [Op.key] at hcur
    simp only [Op.seq] at hseq
    simp only [applyOp, Skiplist.put, Op.key, hcur]
    rw [if_pos (by omega)]
  | del ko sq =>
    simp only [Op.key] at hcur
    simp only [Op.seq] at hseq
    simp only [applyOp, Skiplist.del, Op.key, hcur]
    rw [if_pos (by omega)]

/-- Fold invariant: the stored version record for `k` is the one of the
highest-sequence operation addressing `k` processed so far, provided the
sequence numbers per key are pairwise distinct. -/
theorem findEntry_fold_winner (k : ByteStr) :
    ∀ (ops : List Op), DistinctSeqPerKey ops →
    ∀ (s : Skiplist) (acc : Option Op),
    findEntry s k = acc.map Op.entry →
    (∀ w, acc = some w → ∀ o ∈ ops, o.key = k → w.seq ≠ o.seq) →
    findEntry (ops.foldl applyOp s) k =
      (ops.foldl (winnerStep k) acc).map Op.entry := by
  intro ops
  induction ops with
  | nil => exact fun _ s acc hinv _ => hinv
  | cons op rest ih =>
    intro hpw s acc hinv hacc
    have hpwrest : DistinctSeqPerKey rest := (List.pairwise_cons.mp hpw).2
    have hophd : ∀ o ∈ rest, op.key = o.key → op.seq ≠ o.seq :=
      (List.pairwise_cons.mp hpw).1
    simp only [List.foldl_cons]
    by_cases hko : op.key = k
    · cases acc with
      | none =>
        -- no prior operation on k: the table has no entry, op is accepted
        simp only [Option.map_none'] at hinv
        have hstep : winnerStep k none op = some op := by
          rw [winnerStep, if_pos hko]
        rw [hstep]
        apply ih hpwrest _ (some op)
        · rw [← hko]
          exact (findEntry_applyOp_self s op (hko ▸ hinv)).trans (by simp)
        · rintro w hw o ho hok
          cases hw
          exact hophd o ho (by rw [hko, hok])
      | some w =>
        simp only [Option.map_some'] at hinv
        have hwne : w.seq ≠ op.seq := hacc w rfl op (List.mem_cons_self op rest) hko
        by_cases hwo : w.seq < op.seq
        · -- op wins: accepted by the table, replaces the entry
          have hstep : winnerStep k (some w) op = some op := by
            rw [winnerStep, if_pos hko, if_pos hwo]
          rw [hstep]
          apply ih hpwrest _ (some op)
          · have := findEntry_applyOp_accept s op w.entry (by rw [hko]; exact hinv)
              (by rw [Op.entry_seq]; exact hwo)
            rw [← hko]
            exact this.trans (by simp)
          · rintro w' hw' o ho hok
            cases hw'
            exact hophd o ho (by rw [hko, hok])
        · -- w keeps winning: op is sequence-rejected, table unchanged
          have hop_lt : op.seq ≤ w.seq := by omega
          have hstep : winnerStep k (some w) op = some w := by
            rw [winnerStep, if_pos hko, if_neg hwo]
          rw [hstep]
          have hrej : applyOp s op = s :=
            applyOp_reject s op w.entry (by rw [hko]; exact hinv)
              (by rw [Op.entry_seq]; omega)
          rw [hrej]
          apply ih hpwrest _ (some w)
          · exact hinv
          · rintro w' hw' o ho hok
            cases hw'
            exact hacc w rfl o (List.mem_cons_of_mem op ho) hok
    · -- op addresses another key: both sides unchanged
      have hstep : winnerStep k acc op = acc := by
        cases acc with
        | none => rw [winnerStep, if_neg hko]
        | some w => rw [winnerStep, if_neg hko]
      rw [hstep]
      apply ih hpwrest _ acc
      · rw [findEntry_applyOp_ne s op k hko]
        exact hinv
      · rintro w hw o ho hok
        exact hacc w hw o (List.mem_cons_of_mem op ho) hok

/-- The stored record for `k` after any operation sequence with
per-key-distinct sequence numbers is that of the per-key winner. -/
theorem findEntry_applyOps (ops : List Op) (hpw : DistinctSeqPerKey ops)
    (k : ByteStr) :
    findEntry (applyOps ops) k = (winner ops k).map Op.entry :=
  findEntry_fold_winner k ops hpw [] none rfl (by simp)

theorem sortedTable_applyOp {s : Skiplist} (hs : SortedTable s) (op : Op) :
    SortedTable (applyOp s op) := by
  cases op with
  | put k v sq => exact sortedTable_put hs k v sq
  | del k sq => exact sortedTable_del hs k sq

theorem sortedTable_foldl (ops : List Op) :
    ∀ {s : Skiplist}, SortedTable s → SortedTable (ops.foldl applyOp s) := by
  induction ops with
  | nil => exact fun hs => hs
  | cons op rest ih =>
    intro s hs
    exact ih (sortedTable_applyOp hs op)

/-- Every reachable table state is key-sorted. -/
theorem sortedTable_applyOps (ops : List Op) : SortedTable (applyOps ops) :=
  sortedTable_foldl ops (by simp [SortedTable])

/-- The visible pairs of a sorted table are in strictly ascending
byte-lexicographic key order. -/
theorem visiblePairs_pairwise {s : Skiplist} (hs : SortedTable s) :
    List.Pairwise (fun a b => ltKey a.1 b.1 = true) (visiblePairs s) := by
  induction s with
  | nil => simp [visiblePairs]
  | cons p rest ih =>
    have hhd := (List.pairwise_cons.mp hs).1
    have htail := ih (List.pairwise_cons.mp hs).2
    cases hdel : p.2.deleted with
    | true =>
      have hvp : visiblePairs (p :: rest) = visiblePairs rest := by
        simp [visiblePairs, List.filterMap_cons, hdel]
      rw [hvp]
      exact htail
    | false =>
      have hvp : visiblePairs (p :: rest) =
          (p.1, p.2.value) :: visiblePairs rest := by
        simp [visiblePairs, List.filterMap_cons, hdel]
      rw [hvp]
      refine List.pairwise_cons.mpr ⟨?_, htail⟩
      intro q hq
      rw [visiblePairs] at hq
      obtain ⟨x, hx, hfx⟩ := List.mem_filterMap.mp hq
      have hq1 : q.1 = x.1 := by
        cases hxd : x.2.deleted with
        | true =>
          rw [hxd] at hfx
          simp at hfx
        | false =>
          rw [hxd] at hfx
          simp at hfx
          rw [← hfx]
      rw [hq1]
      exact hhd x hx

/-! ## Concrete records used by the claim instances -/

/-- Record `Put("a","b",1)`. -/
def walRecA : WalRecord := ⟨0, 1, [97], [98]⟩

/-- Record `Put("k","v",1)`. -/
def walRecKV : WalRecord := ⟨0, 1, [107], [118]⟩

/-- Record `Delete` with empty key and empty value, sequence 3. -/
def walRecEmpty : WalRecord := ⟨1, 3, [], []⟩

/-- A `Put` record whose key is `2 ^ 32 - 25` zero bytes, making the
payload length exactly `2 ^ 32 - 8`: the frame bound `8 + payload_len`
wraps to 0 in `Decode`'s `uint32` arithmetic. -/
def walRecHuge : WalRecord := ⟨0, 0, List.replicate (2 ^ 32 - 25) 0, []⟩

/-- The S1 operation sequence on key `"k"`:
`Put(k,"v1",10); Delete(k,5); Delete(k,11); Put(k,"v2",9); Put(k,"v3",12)`. -/
def s1ops : List Op :=
  [.put [107] [118, 49] 10, .del [107] 5, .del [107] 11,
   .put [107] [118, 50] 9, .put [107] [118, 51] 12]

/-! ## The claims -/

/-- C1.  The claim says a tombstone in the current table shadows any
value for the same key in the immutable table, so `Get` returns absent;
in particular `Get("a")` is absent in the S3 state.  The code refutes
it: `Skiplist.Get` reports a tombstone the same way as a missing key
(`nil, false`), so `Memtable.Get` falls through to the immutable table
and returns the shadowed old value.  In the S3 state the current table
holds the tombstone `(3, ∅, true)` for `"a"`, the immutable table holds
`"1"`, and `Get("a")` returns `("1", present)` instead of absent. -/
theorem c1_tombstone_shadowing_bug :
    findEntry mtS3.current [97] = some ⟨3, [], true⟩ ∧
    (mtS3.imm.map fun t => t.get [97]) = some (some [49]) ∧
    mtS3.get [97] = some [49] := by
  decide

/-- C2.  The claim says the merged iterator yields each visible key at
most once, in ascending order, with the current generation winning and
tombstoned keys omitted; on the S4 state it should yield exactly
`[("b","2"), ("bb","22")]`.  The code refutes it: `mergedIterator.Key`
returns the current side's key whenever that side is non-exhausted —
not the smallest key — so while the immutable side still holds `"a"`,
the iterator reports `"b"`, and after `Next` consumes `"a"` it reports
`"b"` again.  On the S4 state the drain yields
`[("b","2"), ("b","2"), ("bb","22")]`: the key `"b"` is yielded twice. -/
theorem c2_merged_iterator_bug :
    ((mtS4.newIterator).seekGE []).drain =
      [([98], [50]), ([98], [50]), ([98, 98], [50, 50])] ∧
    ((mtS4.newIterator).seekGE []).drain ≠
      [([98], [50]), ([98, 98], [50, 50])] := by
  decide

/-- C3.  For any finite sequence of `Put`/`Delete` operations with
pairwise-distinct sequence numbers per key, applied in any order to a
fresh table, the visible state of each key is decided by that key's
highest-sequence operation alone: a `Put` winner makes `Get` return its
value, a `Delete` winner (or no operation) makes `Get` return absent. -/
theorem c3_highest_seq_wins (ops : List Op) (hpw : DistinctSeqPerKey ops)
    (k : ByteStr) :
    (applyOps ops).get k = match winner ops k with
      | some (.put _ v _) => some v
      | _ => none := by
  unfold Skiplist.get
  rw [findEntry_applyOps ops hpw k]
  cases hw : winner ops k with
  | none => rfl
  | some w =>
    cases w with
    | put k0 v0 s0 => simp [Op.entry]
    | del k0 s0 => simp [Op.entry]

/-- Witness for C3: the S1 scenario; the highest-sequence operation on
`"k"` is `Put(k,"v3",12)`, and `Get` returns `"v3"`. -/
theorem c3_witness :
    DistinctSeqPerKey s1ops ∧ (applyOps s1ops).get [107] = some [118, 51] := by
  refine ⟨by decide, ?_⟩
  rw [c3_highest_seq_wins s1ops (by decide) [107]]
  decide

/-- Decode panics on any encoded frame whose payload length is exactly
`2 ^ 32 - 8`: the `uint32` frame bound `8+payloadLen` wraps to 0, the
length check passes, and the payload slice `buf[8:0]` has `low > high`. -/
theorem decode_wrap_panicked (r : WalRecord)
    (hpl : r.payload.length = 2 ^ 32 - 8) :
    decode r.encode = .error .panicked := by
  have hpl32 : r.payload.length < 2 ^ 32 := by omega
  have henc : r.encode = be32 r.payload.length ++
      (be32 (crc32 r.payload) ++ r.payload) := by
    simp [WalRecord.encode, List.append_assoc]
  have hlenenc : r.encode.length = 8 + r.payload.length := by
    rw [henc]
    simp [be32, List.length_append]
    omega
  have htake4 : r.encode.take 4 = be32 r.payload.length := by
    rw [henc, take_pivot _ _ _ (be32_length _).symm]
  have hplv : be32val (r.encode.take 4) = r.payload.length := by
    rw [htake4]
    exact be32val_be32 hpl32
  have hmod : (8 + r.payload.length) % 2 ^ 32 = 0 := by
    rw [hpl]
    omega
  rw [decode, if_neg (by omega), hplv, hmod, if_neg (by omega),
    if_pos (by omega)]

/-- Counterexample to C4 as stated: `walRecHuge` is a record the claim
admits as valid (type `Put`, `uint64` sequence number, byte-string key
and value; the spec's data model allows keys up to `2 ^ 32 - 1` bytes),
yet `Decode(Encode(walRecHuge))` does not succeed: its payload length is
`2 ^ 32 - 8`, so the `uint32` expression `8+payloadLen` in `Decode`
wraps to 0, the length check passes, and the slice
`buf[8 : 8+payloadLen]` panics with `low > high` — a runtime panic, not
a decoded record. -/
theorem c4_counterexample :
    decode walRecHuge.encode = .error .panicked ∧
    (Except.error DecErr.panicked ≠
      (Except.ok walRecHuge : Except DecErr WalRecord)) := by
  refine ⟨decode_wrap_panicked walRecHuge ?_, fun hc => Except.noConfusion hc⟩
  rw [payload_length,
    show walRecHuge.key = List.replicate (2 ^ 32 - 25) 0 from rfl,
    show walRecHuge.value = [] from rfl, List.length_replicate,
    List.length_nil]
  norm_num

/-- C4 (amended).  `Decode(rec.Encode())` succeeds and returns a record
equal to `rec` in type, sequence number, key bytes and value bytes, for
every valid record — type `Put` (0) or `Delete` (1), any `uint64`
sequence number, any byte strings as key and value including empty
ones — whose frame length `25 + key_len + val_len` fits 32-bit
arithmetic.  The bound is forced by the counterexample: at payload
length `2 ^ 32 - 8` and beyond, Go's `uint32` expression `8+payloadLen`
in `Decode` wraps and the slice `buf[8 : 8+payloadLen]` panics. -/
theorem c4_decode_encode_roundtrip (r : WalRecord)
    (ht : r.rtype = 0 ∨ r.rtype = 1) (hs : r.seqNum < 2 ^ 64)
    (hk : ∀ b ∈ r.key, b < 256) (hv : ∀ b ∈ r.value, b < 256)
    (hlen : 25 + r.key.length + r.value.length < 2 ^ 32) :
    decode r.encode = .ok r :=
  decode_encode_of_wf r ⟨ht, hs, hk, hv, hlen⟩

set_option maxRecDepth 40000 in
/-- Witness for C4: a `Delete` record with empty key and empty value
round-trips. -/
theorem c4_witness :
    (walRecEmpty.rtype = 0 ∨ walRecEmpty.rtype = 1) ∧
    walRecEmpty.key = [] ∧ walRecEmpty.value = [] ∧
    decode walRecEmpty.encode = .ok walRecEmpty :=
  ⟨by decide, rfl, rfl,
    c4_decode_encode_roundtrip walRecEmpty (by decide) (by decide)
      (by decide) (by decide) (by decide)⟩

set_option maxRecDepth 40000 in
/-- Counterexample to C5 as stated: flipping bit 7 of byte 0 — inside
the `payload_len` field — of the encoded frame of `Put("k","v",1)`
makes `Decode` fail with the buffer-truncation error, not
`ChecksumMismatch`: the flip raises the length field to `0x80000013`,
so the length check `len(buf) < 8 + payload_len` fires first. -/
theorem c5_counterexample :
    decode (flipBit walRecKV.encode 0 7) = .error .truncated ∧
    DecErr.truncated ≠ DecErr.badSum := by
  constructor
  · decide
  · decide

/-- C5 (amended).  Flipping any single bit within the checksum field
(bytes 4-7) or within the payload (bytes 8 up to the end of the frame)
of a valid record's encoding causes `Decode` to fail with the
checksum-mismatch error — never to succeed and never to fail with a
different error.  (A flip inside the `payload_len` field, excluded here,
can instead fail with the truncation error, see the counterexample.) -/
theorem c5_flip_checksum_or_payload (r : WalRecord) (hw : WfRecord r)
    (i k : Nat) (hk : k < 8)
    (hi : (4 ≤ i ∧ i < 8) ∨ (8 ≤ i ∧ i < r.encode.length)) :
    decode (flipBit r.encode i k) = .error .badSum := by
  apply decode_flip_badSum r hw i k hk
  rcases hi with h | ⟨h8, htop⟩
  · exact Or.inl h
  · refine Or.inr ⟨h8, ?_⟩
    have h1 := encode_length r
    have h2 := payload_length r
    omega

set_option maxRecDepth 40000 in
/-- Witness for C5: flipping bit 0 of byte 4 — the first checksum
byte — of the frame of `Put("k","v",1)` yields `ChecksumMismatch`. -/
theorem c5_witness :
    WfRecord walRecKV ∧
    decode (flipBit walRecKV.encode 4 0) = .error .badSum :=
  ⟨by decide,
    c5_flip_checksum_or_payload walRecKV (by decide) 4 0 (by decide)
      (Or.inl (by decide))⟩

/-- C6.  `Reader.Replay` with a never-failing callback, on a file that
holds some complete well-formed frames followed by a torn tail (a
proper prefix of one more frame, as left by a crash):
* if at least one complete record precedes the tail, replay ends
  normally and delivers exactly the complete records;
* if the torn tail is hit with zero records delivered and the short
  read is `ErrUnexpectedEOF`, that error is returned;
* a checksum mismatch in any frame is always returned to the caller,
  after any number of good records, never skipped. -/
theorem c6_replay_recovery (recs : List WalRecord) (r0 : WalRecord)
    (t s : List Nat) (hw : ∀ r ∈ recs, WfRecord r) (hw0 : WfRecord r0)
    (hts : t ++ s = r0.encode) (hsne : s ≠ []) :
    (recs ≠ [] → replay (encodeAll recs ++ t) = .normal recs)
    ∧ (readRecord t = .unexpEof → replay t = .errUnexpEof)
    ∧ (∀ bad : List Nat, readRecord bad = .failed .badSum →
        replay (encodeAll recs ++ bad) = .errFailed .badSum) := by
  refine ⟨?_, ?_, ?_⟩
  · intro hne
    unfold replay
    rw [replayAux_encodeAll recs hw t 0 []]
    simp only [List.nil_append, Nat.zero_add]
    rcases readRecord_torn r0 hw0 t s hts hsne with h | h
    · rw [replayAux, h]
    · rw [replayAux, h,
        if_neg (fun hh => hne (List.length_eq_zero.mp hh))]
  · intro h
    unfold replay
    rw [replayAux, h, if_pos rfl]
  · intro bad hbad
    unfold replay
    rw [replayAux_encodeAll recs hw bad 0 []]
    rw [replayAux, hbad]

set_option maxRecDepth 40000 in
/-- Witness for C6: one complete frame of `Put("a","b",1)` followed by
the first 10 bytes of a second copy of that frame; replay delivers
exactly the one complete record and no error. -/
theorem c6_witness :
    (∀ r ∈ [walRecA], WfRecord r) ∧ walRecA.encode.drop 10 ≠ [] ∧
    replay (encodeAll [walRecA] ++ walRecA.encode.take 10) =
      .normal [walRecA] := by
  refine ⟨by decide, by decide, ?_⟩
  exact (c6_replay_recovery [walRecA] walRecA (walRecA.encode.take 10)
    (walRecA.encode.drop 10) (by decide) (by decide)
    (List.take_append_drop 10 _) (by decide)).1 (by simp)

/-- C7.  The claim says `Decode` is total: every buffer yields a record
or an error (the too-short error for undersized buffers), with no
out-of-bounds access.  The code refutes it: on the 8-byte all-zero
buffer — smaller than the 25-byte minimum frame of a valid record — the
length field reads 0, the stored checksum 0 equals `crc32([])`, and the
parser then indexes `buf[8]` out of range: a Go runtime panic
(`panicked` in the model), not a returned error. -/
theorem c7_decode_panics_on_zero_frame :
    decode (List.replicate 8 0) = .error .panicked ∧
    (List.replicate 8 0).length < 25 := by
  constructor
  · decide
  · decide

/-- C8.  A `Skiplist` iterator drained from `SeekGE("")` yields exactly
the non-tombstoned key/value pairs of the table state at creation time,
in strictly ascending byte-lexicographic key order, for every reachable
table state.  Snapshot isolation, the claim's second half, is inherited
from the construction of the iterator: `NewIterator` deep-copies all
visible keys and values under the lock (the model's iterator holds those
copies by value), so no later `Put` or `Delete` on the table can alter
the sequence an existing iterator yields. -/
theorem c8_snapshot_iterator (ops : List Op) :
    (((applyOps ops).newIterator).seekGE []).drain =
      visiblePairs (applyOps ops)
    ∧ List.Pairwise (fun a b => ltKey a.1 b.1 = true)
        (visiblePairs (applyOps ops)) :=
  ⟨drain_newIterator_seekGE_nil _,
    visiblePairs_pairwise (sortedTable_applyOps ops)⟩

/-- C9.  With the immutable slot populated, a `Put` or `Delete` leaves
the immutable table untouched (byte-for-byte the same table value), the
write goes to the current table, no further flip occurs (the flip
branch requires `imm == nil`), and `PopImmutable` clears the slot. -/
theorem c9_immutable_frozen (m : Memtable) (key val : ByteStr) (sq : Nat)
    (him : m.imm ≠ none) :
    (m.put key val sq).imm = m.imm ∧
    (m.put key val sq).current = m.current.put key val sq ∧
    (m.del key sq).imm = m.imm ∧
    (m.del key sq).current = m.current.del key sq ∧
    (m.popImmutable).2.imm = none := by
  have hcond : ¬(m.imm = none ∧ 0 < m.threshold ∧
      m.threshold < m.sizeBytes + key.length + val.length) :=
    fun h => him h.1
  refine ⟨?_, ?_, rfl, rfl, rfl⟩ <;> simp [Memtable.put, hcond]

/-- Witness for C9: in the S3 state (immutable slot populated), a fresh
put leaves the immutable table unchanged. -/
theorem c9_witness :
    mtS3.imm ≠ none ∧ (mtS3.put [99] [51] 9).imm = mtS3.imm :=
  ⟨by decide, (c9_immutable_frozen mtS3 [99] [51] 9 (by decide)).1⟩

/-- C10.  A `Memtable.Put` that the current table sequence-rejects (the
key's stored sequence is at least the put's, so the table is unchanged)
still increases the controller's byte counter by `len(key)+len(val)`,
because `Skiplist.Put` always returns `nil`; consequently a run of puts
that are all rejected can cross the threshold and trigger a flip, as
the concrete run `Put(a,1,5); Put(a,1,3); Put(a,1,2)` at threshold 4
shows (the first put is accepted, the next is rejected yet doubles the
counter, and the last finds the projected size 6 > 4 and flips). -/
theorem c10_rejected_put_grows_counter :
    (∀ (m : Memtable) (key val : ByteStr) (sq : Nat) (e : Entry),
      ¬(m.imm = none ∧ 0 < m.threshold ∧
        m.threshold < m.sizeBytes + key.length + val.length) →
      findEntry m.current key = some e → sq ≤ e.seq →
      (m.put key val sq).current = m.current ∧
      (m.put key val sq).sizeBytes =
        m.sizeBytes + key.length + val.length)
    ∧ ((((newMemtable 4).put [97] [49] 5).put [97] [49] 3).put
        [97] [49] 2).imm ≠ none := by
  constructor
  · intro m key val sq e hnoflip hfind hseq
    have hrej : m.current.put key val sq = m.current := by
      simp only [Skiplist.put, hfind]
      rw [if_pos hseq]
    constructor
    · simp [Memtable.put, hnoflip, hrej]
    · simp [Memtable.put, hnoflip]
  · decide

/-- Witness for C10: at threshold 10, `Put(a,1,3)` against a table whose
entry for `a` has sequence 5 is rejected, yet the byte counter grows. -/
theorem c10_witness :
    findEntry ((newMemtable 10).put [97] [49] 5).current [97] =
      some ⟨5, [49], false⟩ ∧
    (((newMemtable 10).put [97] [49] 5).put [97] [49] 3).current =
      ((newMemtable 10).put [97] [49] 5).current ∧
    (((newMemtable 10).put [97] [49] 5).put [97] [49] 3).sizeBytes =
      ((newMemtable 10).put [97] [49] 5).sizeBytes + 2 := by
  refine ⟨by decide, ?_, ?_⟩
  · exact (c10_rejected_put_grows_counter.1 ((newMemtable 10).put [97] [49] 5)
      [97] [49] 3 ⟨5, [49], false⟩ (by decide) (by decide) (by decide)).1
  · have h := (c10_rejected_put_grows_counter.1 ((newMemtable 10).put [97] [49] 5)
      [97] [49] 3 ⟨5, [49], false⟩ (by decide) (by decide) (by decide)).2
    simpa using h
